import Mathlib

/-!
# Verification of the vue-ip-mac-mask core logic

Shallow embedding of the mask-handler core (IPv4 / IPv6 / MAC format,
validate, isValidChar, segment utilities, cursor recalculation) from the
repository source, together with theorems settling the specification
claims.

Strings are modelled as `List Char`; JS `slice` with nonnegative
arguments is `take`/`drop`, JS `split(d)` on a single-character
delimiter is `List.splitOn d`, JS `join(d)` is `List.intercalate [d]`.
Character classes from the source's regexes are modelled by code-point
ranges (`/\d/` is 48–57, `/[0-9a-fA-F]/` adds 97–102 and 65–70).
-/

/-- Character class `/\d/` from the source: a decimal digit. -/
def isDigit (c : Char) : Bool :=
  48 ≤ c.toNat && c.toNat ≤ 57

/-- Character class `/[0-9a-fA-F]/` from the source (`isHexChar`). -/
def isHexChar (c : Char) : Bool :=
  (48 ≤ c.toNat && c.toNat ≤ 57) || (97 ≤ c.toNat && c.toNat ≤ 102) ||
    (65 ≤ c.toNat && c.toNat ≤ 70)

/-- Decimal value of a digit string (used to model `parseInt(s, 10)` on
digit-only input). -/
def decValue (s : List Char) : Nat :=
  s.foldl (fun n c => 10 * n + (c.toNat - 48)) 0

/-- Model of JS `parseInt(s, 10)` as used in the source: every call site
passes a string of decimal digits (possibly empty), so we model the
digit-prefix parse; `none` is JS `NaN` (empty digit prefix). -/
def parseIntDec (s : List Char) : Option Nat :=
  let t := s.takeWhile isDigit
  if t = [] then none else some (decValue t)

/-- `simulateInsert` from the source:
`value.slice(0, cursorPos) + char + value.slice(selEnd)`. -/
def simulateInsert (value : List Char) (char : Char)
    (cursorPos selectionEnd : Nat) : List Char :=
  value.take cursorPos ++ char :: value.drop selectionEnd

/-- JS `value.indexOf(d, i0)` for a single character `d`: least index
`≥ i0` holding `d`, `none` when there is none. -/
def jsIndexOfFrom (value : List Char) (d : Char) (i0 : Nat) : Option Nat :=
  match (value.drop i0).findIdx? (· = d) with
  | some k => some (i0 + k)
  | none => none

/-- JS `value.lastIndexOf(d, i0)` for a single character `d` and a
nonnegative `i0`: greatest index `≤ i0` holding `d` (JS clamps a
negative `fromIndex` to 0, which the `Nat` subtraction at the call site
reproduces). -/
def jsLastIndexOfLe (value : List Char) (d : Char) (i0 : Nat) : Option Nat :=
  match (value.take (i0 + 1)).reverse.findIdx? (· = d) with
  | some k => some ((value.take (i0 + 1)).length - 1 - k)
  | none => none

/-- `getSegmentBounds` from the source:
`start = value.lastIndexOf(delimiter, index - 1) + 1` (`-1` mapping to
start 0), `end = value.indexOf(delimiter, index)` with `-1` mapping to
`value.length`. -/
def getSegmentBounds (value : List Char) (index : Nat) (delimiter : Char) :
    Nat × Nat :=
  let start := match jsLastIndexOfLe value delimiter (index - 1) with
    | some i => i + 1
    | none => 0
  let stop := match jsIndexOfFrom value delimiter index with
    | some i => i
    | none => value.length
  (start, stop)

/-- `getSegmentTextAt` from the source: `value.slice(start, end)`. -/
def getSegmentTextAt (value : List Char) (index : Nat) (delimiter : Char) :
    List Char :=
  let b := getSegmentBounds value index delimiter
  (value.take b.2).drop b.1

/-- `countChar` from the source: number of occurrences of `ch`. -/
def countChar (value : List Char) (ch : Char) : Nat :=
  (value.filter (· = ch)).length

/-- `computeNewCursorPosition` from the source. -/
def computeNewCursorPosition (oldValue newValue : List Char)
    (oldCursor : Nat) : Nat :=
  if newValue.length < oldValue.length then min oldCursor newValue.length
  else if oldValue.length < newValue.length then
    oldCursor + (newValue.length - oldValue.length)
  else oldCursor

/-! ## IPv4 handler -/

/-- The truncation step of the IPv4 format loop:
`if (segment.length > 3) segment = segment.slice(0, 3)`. -/
def ipv4Trunc (s : List Char) : List Char :=
  if 3 < s.length then s.take 3 else s

/-- The body of the IPv4 format loop applied to one split segment:
truncate to 3 characters, then clamp a parsed value above 255 to
`"255"`. -/
def ipv4ProcSeg (s : List Char) : List Char :=
  match parseIntDec (ipv4Trunc s) with
  | none => ipv4Trunc s
  | some n => if 255 < n then ['2', '5', '5'] else ipv4Trunc s

/-- The auto-advance test of the IPv4 format loop on the processed
segment: nonempty, and length 3, or length 2 with `parseInt(seg + "0")`
above 255. -/
def ipv4Advance (segment : List Char) : Bool :=
  0 < segment.length &&
    (segment.length == 3 ||
      (segment.length == 2 &&
        match parseIntDec (segment ++ ['0']) with
        | some n => 255 < n
        | none => false))

/-- The IPv4 format loop: `i` is the loop counter, `total` the original
`segments.length`; each iteration pushes the processed segment and, when
`i < 3 && i === segments.length - 1` and the processed segment passes
the auto-advance test, an extra empty segment. -/
def ipv4Loop (total : Nat) : Nat → List (List Char) → List (List Char)
  | _, [] => []
  | i, s :: rest =>
    let segment := ipv4ProcSeg s
    let extra := if i < 3 && i == total - 1 && ipv4Advance segment then
        [([] : List Char)] else []
    segment :: (extra ++ ipv4Loop total (i + 1) rest)

/-- `maskHandlers.ipv4.format`: strip characters outside `[\d.]`, split
on `.`, process at most the first 4 segments, rejoin with `.`. -/
def ipv4Format (value : List Char) : List Char :=
  let cleaned := value.filter (fun c => isDigit c || c == '.')
  let segments := cleaned.splitOn '.'
  List.intercalate ['.'] (ipv4Loop segments.length 0 (segments.take 4))

/-- One alternative of the IPv4 validate regex,
`25[0-5]|2[0-4]\d|[01]?\d\d?`, as a predicate on a dot-free segment. -/
def ipv4SegOk (s : List Char) : Bool :=
  match s with
  | [a] => isDigit a
  | [a, b] => isDigit a && isDigit b
  | [a, b, c] =>
    (a.toNat == 50 && b.toNat == 53 && 48 ≤ c.toNat && c.toNat ≤ 53) ||
      (a.toNat == 50 && 48 ≤ b.toNat && b.toNat ≤ 52 && isDigit c) ||
      ((a.toNat == 48 || a.toNat == 49) && isDigit b && isDigit c)
  | _ => false

/-- `maskHandlers.ipv4.validate`: the anchored regex
`^(A)\.(A)\.(A)\.(A)$` with `A = 25[0-5]|2[0-4]\d|[01]?\d\d?`. Since
`A` matches only dot-free digit strings and the three dots are literal,
a full-string match is exactly: splitting on `.` yields 4 parts, each
matching `A`. -/
def ipv4Validate (value : List Char) : Bool :=
  let parts := value.splitOn '.'
  parts.length == 4 && parts.all ipv4SegOk

/-! ## IPv6 handler -/

/-- Emit a pending run of `n` colons as the replacement
`cleaned.replace(/:{3,}/g, '::')` would: runs of 3 or more collapse to
exactly two colons, shorter runs are kept. -/
def emitColons (n : Nat) : List Char :=
  if 3 ≤ n then [':', ':'] else List.replicate n ':'

/-- Scanner for `replace(/:{3,}/g, '::')`: `n` counts the colons of the
run currently being read. -/
def collapseColonRuns : Nat → List Char → List Char
  | n, [] => emitColons n
  | n, c :: cs =>
    if c = ':' then collapseColonRuns (n + 1) cs
    else emitColons n ++ c :: collapseColonRuns 0 cs

/-- `maskHandlers.ipv6.format`: strip characters outside
`[0-9a-fA-F:]`, then collapse every run of 3-or-more colons to `::`. -/
def ipv6Format (value : List Char) : List Char :=
  let cleaned := value.filter (fun c => isHexChar c || c == ':')
  collapseColonRuns 0 cleaned

/-- A hextet of the IPv6 validate regex: `[0-9a-fA-F]{1,4}`. -/
def isHextet (p : List Char) : Bool :=
  1 ≤ p.length && p.length ≤ 4 && p.all isHexChar

/-- Branch `([0-9a-fA-F]{1,4}:){7,7}[0-9a-fA-F]{1,4}` of the IPv6
validate regex, on the colon-split parts: 8 hextets. -/
def ipv6Branch1 (ps : List (List Char)) : Bool :=
  ps.length == 8 && ps.all isHextet

/-- Branch `([0-9a-fA-F]{1,4}:){1,7}:`: `k ∈ [1,7]` hextets each
followed by `:`, then a final `:`; the split parts are the `k` hextets
followed by two empty parts. -/
def ipv6Branch2 (ps : List (List Char)) : Bool :=
  3 ≤ ps.length && ps.length ≤ 9 &&
    (ps.take (ps.length - 2)).all isHextet &&
    ps.getD (ps.length - 2) [] == ([] : List Char) &&
    ps.getD (ps.length - 1) [] == ([] : List Char)

/-- Branches `([0-9a-fA-F]{1,4}:){1,K}(:[0-9a-fA-F]{1,4}){1,J}` (and
the equivalent spellings `...{1,6}:[0-9a-fA-F]{1,4}` for `J = 1` and
`[0-9a-fA-F]{1,4}:((:...){1,6})` for `K = 1`): `k` hextets, one empty
part where the two adjacent colons meet, then `j` hextets. -/
def ipv6BranchMid (K J : Nat) (ps : List (List Char)) : Bool :=
  (List.range K).any fun k0 =>
    (List.range J).any fun j0 =>
      let k := k0 + 1
      let j := j0 + 1
      ps.length == k + 1 + j &&
        (ps.take k).all isHextet &&
        ps.getD k [] == ([] : List Char) &&
        (ps.drop (k + 1)).all isHextet

/-- Branch `:((:[0-9a-fA-F]{1,4}){1,7}|:)` together with the final
alternative `::`: two leading empty parts then `j ∈ [1,7]` hextets, or
the three empty parts of `"::"`. -/
def ipv6Branch9 (ps : List (List Char)) : Bool :=
  ((List.range 7).any fun j0 =>
    ps.length == j0 + 3 &&
      ps.getD 0 [] == ([] : List Char) &&
      ps.getD 1 [] == ([] : List Char) &&
      (ps.drop 2).all isHextet) ||
    ps == [[], [], []]

/-- `maskHandlers.ipv6.validate`: the anchored alternation regex for
the IPv6 textual form. Every alternative is a concatenation of hextets
and literal colons, so a full-string match is characterised on the
colon-split parts branch by branch (adjacent colons produce an empty
part; a leading or trailing colon produces a leading or trailing empty
part). -/
def ipv6Validate (value : List Char) : Bool :=
  let ps := value.splitOn ':'
  ipv6Branch1 ps || ipv6Branch2 ps || ipv6BranchMid 6 1 ps ||
    ipv6BranchMid 5 2 ps || ipv6BranchMid 4 3 ps || ipv6BranchMid 3 4 ps ||
    ipv6BranchMid 2 5 ps || ipv6BranchMid 1 6 ps || ipv6Branch9 ps

/-- Whether a string starts with two colons. -/
def startsTwoColons (l : List Char) : Bool :=
  l.head? == some ':' && (l.drop 1).head? == some ':'

/-- The test `/:{3,}/.test(s)`: some position starts a run of 3
consecutive colons. -/
def hasTripleColon : List Char → Bool
  | [] => false
  | c :: cs => (c == ':' && startsTwoColons cs) || hasTripleColon cs

/-- `s.includes('::')`: some position starts two consecutive colons. -/
def containsDoubleColon : List Char → Bool
  | [] => false
  | c :: cs => (c == ':' && cs.head? == some ':') || containsDoubleColon cs

/-- `(s.match(/::/g) || []).length`: the number of non-overlapping
`::` matches of a left-to-right greedy scan (on a match, the scan
resumes after the second colon). -/
def countDoubleColonMatches : List Char → Nat
  | [] => 0
  | [_] => 0
  | a :: b :: cs =>
    if a = ':' ∧ b = ':' then 1 + countDoubleColonMatches cs
    else countDoubleColonMatches (b :: cs)

/-- `maskHandlers.ipv6.isValidChar`. -/
def ipv6IsValidChar (char : Char) (currentValue : List Char)
    (cursorPos selectionEnd : Nat) : Bool :=
  if !(isHexChar char || char == ':') then false
  else
    let left := currentValue.take cursorPos
    let right := currentValue.drop cursorPos
    if char == ':' then
      let after := simulateInsert currentValue char cursorPos selectionEnd
      if hasTripleColon after then false
      else if 1 < countDoubleColonMatches after then false
      else if !containsDoubleColon after && 7 < countChar after ':' then false
      else
        let isFormingDouble := left.getLast? == some ':' ||
          right.head? == some ':'
        let currentSeg := getSegmentTextAt currentValue cursorPos ':'
        if !isFormingDouble && currentSeg.length == 0 then false
        else true
    else if isHexChar char then
      let after := simulateInsert currentValue char cursorPos selectionEnd
      let segAfter := getSegmentTextAt after (cursorPos + 1) ':'
      if 4 < segAfter.length then false else true
    else false

/-! ## MAC handler -/

/-- The pair-chunking loop of the MAC format fallback path:
`for (i = 0; i < hexOnly.length; i += 2) pairs.push(hexOnly.slice(i, i+2))`. -/
def chunkPairs : List Char → List (List Char)
  | [] => []
  | [a] => [[a]]
  | a :: b :: rest => [a, b] :: chunkPairs rest

/-- `maskHandlers.mac.format`: if the cleaned value contains a colon and
its first 6 colon-segments are all at most 2 characters, truncate each
to 2 and rejoin (colon-aware path); otherwise take the hex digits of
the original value, cap at 12, and rejoin in pairs. -/
def macFormat (value : List Char) : List Char :=
  let cleanedAll := value.filter (fun c => isHexChar c || c == ':')
  let hasColon := cleanedAll.contains ':'
  let rawSegments := ((cleanedAll.splitOn ':').take 6).map
    (fun seg => seg.filter isHexChar)
  if hasColon && rawSegments.all (fun seg => seg.length ≤ 2) then
    List.intercalate [':'] (rawSegments.map (fun seg => seg.take 2))
  else
    let hexOnly := (value.filter isHexChar).take 12
    List.intercalate [':'] (chunkPairs hexOnly)

/-- `maskHandlers.mac.validate`: the anchored regex
`^([0-9a-fA-F]{2}:){5}[0-9a-fA-F]{2}$`, i.e. the colon-split parts are
6 segments of exactly 2 hex characters. -/
def macValidate (value : List Char) : Bool :=
  let parts := value.splitOn ':'
  parts.length == 6 && parts.all fun p => p.length == 2 && p.all isHexChar

/-- `maskHandlers.mac.isValidChar`. -/
def macIsValidChar (char : Char) (currentValue : List Char)
    (cursorPos selectionEnd : Nat) : Bool :=
  if !(isHexChar char || char == ':') then false
  else
    let left := currentValue.take cursorPos
    let right := currentValue.drop selectionEnd
    if char == ':' then
      let currentSeg := (getSegmentTextAt currentValue cursorPos ':').filter
        isHexChar
      let totalHex := (currentValue.filter isHexChar).length
      let colonCount := countChar currentValue ':'
      if !(currentSeg.length == 2) then false
      else if 5 ≤ colonCount then false
      else if 12 ≤ totalHex then false
      else if left.getLast? == some ':' || right.head? == some ':' then false
      else true
    else if isHexChar char then
      let after := simulateInsert currentValue char cursorPos selectionEnd
      if 12 < (after.filter isHexChar).length then false else true
    else false

/-! ## Specification-side notions used to state the claims -/

/-- Number of positions at which two consecutive colons occur (used to
state "a second `::` occurrence" in the claim about the IPv6 colon
acceptance test). -/
def countColonPairs : List Char → Nat
  | [] => 0
  | c :: cs =>
    (if c = ':' ∧ cs.head? = some ':' then 1 else 0) + countColonPairs cs

/-- Modelled from the claim wording for the IPv4 validate operation:
a dot-free segment that is a decimal number 0–255 with no invalid
leading-zero form (a multi-character segment must not start with
`'0'`). -/
def ipv4SpecSegOk (s : List Char) : Bool :=
  s.all isDigit && 1 ≤ s.length && decValue s ≤ 255 &&
    (s.length == 1 || s.headD '0' != '0')

/-- The characterisation of IPv4 validate asserted by the claim:
exactly four dot-separated segments, each satisfying `ipv4SpecSegOk`. -/
def ipv4SpecValidate (value : List Char) : Bool :=
  let parts := value.splitOn '.'
  parts.length == 4 && parts.all ipv4SpecSegOk

/-- "Complete" segment in the claim about the IPv4 auto-advance: length
3, or length 2 where appending a trailing `'0'` (i.e. multiplying the
value by 10) gives a number greater than 255. -/
def ipv4ClaimComplete (s : List Char) : Bool :=
  s.length == 3 || (s.length == 2 && 255 < 10 * decValue s)

/-! ## Split / join infrastructure -/

theorem splitOn_char_cons (a c : Char) (xs : List Char) :
    (c :: xs).splitOn a =
      if c = a then [] :: xs.splitOn a
      else (xs.splitOn a).modifyHead (List.cons c) := by
  simp only [List.splitOn, List.splitOnP_cons, beq_iff_eq]

theorem splitOn_char_ne_nil (a : Char) (xs : List Char) : xs.splitOn a ≠ [] :=
  List.splitOnP_ne_nil _ xs

theorem mem_splitOn_char {d : Char} {xs p : List Char}
    (hp : p ∈ xs.splitOn d) : ∀ c ∈ p, c ∈ xs ∧ c ≠ d := by
  induction xs generalizing p with
  | nil =>
    rw [List.splitOn_nil] at hp
    rcases List.mem_singleton.mp hp with rfl
    intro c hc; cases hc
  | cons x xs ih =>
    rw [splitOn_char_cons] at hp
    by_cases hx : x = d
    · rw [if_pos hx] at hp
      rcases List.mem_cons.mp hp with rfl | hp'
      · intro c hc; cases hc
      · intro c hc
        rcases ih hp' c hc with ⟨h1, h2⟩
        exact ⟨List.mem_cons_of_mem _ h1, h2⟩
    · rw [if_neg hx] at hp
      rcases h' : xs.splitOn d with _ | ⟨hd, tl⟩
      · exact absurd h' (splitOn_char_ne_nil d xs)
      · rw [h'] at hp
        simp only [List.modifyHead] at hp
        rcases List.mem_cons.mp hp with rfl | hp'
        · intro c hc
          rcases List.mem_cons.mp hc with rfl | hc'
          · exact ⟨List.mem_cons_self _ _, hx⟩
          · rcases ih (h' ▸ List.mem_cons_self hd tl) c hc' with ⟨h1, h2⟩
            exact ⟨List.mem_cons_of_mem _ h1, h2⟩
        · intro c hc
          rcases ih (h' ▸ List.mem_cons_of_mem hd hp') c hc with ⟨h1, h2⟩
          exact ⟨List.mem_cons_of_mem _ h1, h2⟩

theorem flatten_splitOn_char (d : Char) (xs : List Char) :
    (xs.splitOn d).flatten = xs.filter (fun c => c != d) := by
  induction xs with
  | nil => simp [List.splitOn_nil]
  | cons x xs ih =>
    rw [splitOn_char_cons]
    by_cases hx : x = d
    · subst hx
      simp [List.filter_cons, ih]
    · rcases h' : xs.splitOn d with _ | ⟨hd, tl⟩
      · exact absurd h' (splitOn_char_ne_nil d xs)
      · rw [if_neg hx]
        rw [h'] at ih
        simp only [List.modifyHead, List.flatten_cons, List.filter_cons]
        have hbne : (x != d) = true := bne_iff_ne.mpr hx
        rw [hbne]
        simp only [List.flatten_cons] at ih
        simp [← ih]

theorem length_splitOn_char (d : Char) (xs : List Char) :
    (xs.splitOn d).length = countChar xs d + 1 := by
  induction xs with
  | nil => simp [List.splitOn_nil, countChar]
  | cons x xs ih =>
    rw [splitOn_char_cons]
    by_cases hx : x = d
    · subst hx
      simp [countChar, List.filter_cons, ih]
    · rw [if_neg hx]
      have : countChar (x :: xs) d = countChar xs d := by
        simp [countChar, List.filter_cons, decide_eq_true_eq, hx]
      rw [this, List.length_modifyHead, ih]

theorem intercalate_char_nil (d : Char) :
    List.intercalate [d] ([] : List (List Char)) = [] := by
  simp [List.intercalate]

theorem intercalate_char_single (d : Char) (p : List Char) :
    List.intercalate [d] [p] = p := by
  simp [List.intercalate]

theorem intercalate_char_cons (d : Char) (p q : List Char)
    (ps : List (List Char)) :
    List.intercalate [d] (p :: q :: ps) =
      p ++ d :: List.intercalate [d] (q :: ps) := by
  simp [List.intercalate, List.intersperse]

theorem mem_intercalate_char {d : Char} {ps : List (List Char)} {c : Char}
    (hc : c ∈ List.intercalate [d] ps) : c = d ∨ ∃ p ∈ ps, c ∈ p := by
  induction ps with
  | nil => rw [intercalate_char_nil] at hc; cases hc
  | cons p ps ih =>
    rcases ps with _ | ⟨q, ps'⟩
    · rw [intercalate_char_single] at hc
      exact Or.inr ⟨p, List.mem_singleton_self p, hc⟩
    · rw [intercalate_char_cons] at hc
      rcases List.mem_append.mp hc with h1 | h2
      · exact Or.inr ⟨p, List.mem_cons_self _ _, h1⟩
      · rcases List.mem_cons.mp h2 with rfl | h3
        · exact Or.inl rfl
        · rcases ih h3 with h | ⟨r, hr, hcr⟩
          · exact Or.inl h
          · exact Or.inr ⟨r, List.mem_cons_of_mem _ hr, hcr⟩

theorem filter_ne_intercalate {d : Char} {ps : List (List Char)}
    (h : ∀ p ∈ ps, ∀ c ∈ p, c ≠ d) :
    (List.intercalate [d] ps).filter (fun c => c != d) = ps.flatten := by
  induction ps with
  | nil => simp [intercalate_char_nil]
  | cons p ps ih =>
    have hp : p.filter (fun c => c != d) = p :=
      List.filter_eq_self.mpr fun c hc =>
        bne_iff_ne.mpr (h p (List.mem_cons_self _ _) c hc)
    rcases ps with _ | ⟨q, ps'⟩
    · simp [intercalate_char_single, hp]
    · rw [intercalate_char_cons]
      rw [List.filter_append, hp, List.filter_cons]
      have hd : ((d != d) = true) = False := by simp
      simp only [bne_self_eq_false, Bool.false_eq_true, if_false]
      rw [ih fun r hr => h r (List.mem_cons_of_mem _ hr)]
      simp

theorem mem_self_intercalate_char (d : Char) (p q : List Char)
    (ps : List (List Char)) : d ∈ List.intercalate [d] (p :: q :: ps) := by
  rw [intercalate_char_cons]
  simp

/-! ## Sublist infrastructure -/

theorem flatten_map_sublist (f : List Char → List Char)
    (ps : List (List Char)) (h : ∀ p ∈ ps, List.Sublist (f p) p) :
    List.Sublist (ps.map f).flatten ps.flatten := by
  induction ps with
  | nil => simp
  | cons p ps ih =>
    simp only [List.map_cons, List.flatten_cons]
    exact List.Sublist.append (h p (List.mem_cons_self _ _))
      (ih fun q hq => h q (List.mem_cons_of_mem _ hq))

theorem flatten_sublist_of_sublist {ps qs : List (List Char)}
    (h : List.Sublist ps qs) : List.Sublist ps.flatten qs.flatten := by
  induction h with
  | slnil => exact List.Sublist.refl _
  | cons a h ih =>
    simp only [List.flatten_cons]
    exact ih.trans (List.sublist_append_right _ _)
  | cons₂ a h ih =>
    simp only [List.flatten_cons]
    exact List.Sublist.append (List.Sublist.refl a) ih

/-! ## chunkPairs lemmas -/

theorem chunkPairs_flatten (l : List Char) : (chunkPairs l).flatten = l := by
  induction l using chunkPairs.induct with
  | case1 => rfl
  | case2 a => rfl
  | case3 a b rest ih => simp [chunkPairs, ih]

theorem chunkPairs_length_le (l : List Char) (p : List Char)
    (hp : p ∈ chunkPairs l) : p.length ≤ 2 := by
  induction l using chunkPairs.induct with
  | case1 => cases hp
  | case2 a =>
    rcases List.mem_singleton.mp hp with rfl
    simp
  | case3 a b rest ih =>
    rcases List.mem_cons.mp hp with rfl | hp'
    · simp
    · exact ih hp'

theorem chunkPairs_mem_chars (l : List Char) (p : List Char)
    (hp : p ∈ chunkPairs l) : ∀ c ∈ p, c ∈ l := by
  intro c hc
  have : c ∈ (chunkPairs l).flatten := List.mem_flatten.mpr ⟨p, hp, hc⟩
  rwa [chunkPairs_flatten] at this

theorem chunkPairs_two_mul_length (l : List Char) :
    2 * (chunkPairs l).length ≤ l.length + 1 := by
  induction l using chunkPairs.induct with
  | case1 => simp [chunkPairs]
  | case2 a => simp [chunkPairs]
  | case3 a b rest ih =>
    simp only [chunkPairs, List.length_cons]
    omega

theorem chunkPairs_ne_nil (l : List Char) (h : l ≠ []) :
    chunkPairs l ≠ [] := by
  cases l with
  | nil => exact absurd rfl h
  | cons a t => cases t <;> simp [chunkPairs]

theorem chunkPairs_two_le_length (l : List Char) (h : 3 ≤ l.length) :
    2 ≤ (chunkPairs l).length := by
  rcases l with _ | ⟨a, _ | ⟨b, _ | ⟨c, t⟩⟩⟩ <;> simp_all [chunkPairs]
  have := chunkPairs_ne_nil (c :: t) (by simp)
  exact Nat.one_le_iff_ne_zero.mpr (by simpa [List.length_eq_zero] using this)

/-! ## Colon-run collapse lemmas (IPv6 format) -/

theorem startsTwoColons_append {c : Char} (hc : c ≠ ':')
    (xs ys : List Char) :
    startsTwoColons (xs ++ c :: ys) = startsTwoColons xs := by
  rcases xs with _ | ⟨a, _ | ⟨b, t⟩⟩ <;>
    simp [startsTwoColons, beq_iff_eq, hc]

theorem hasTriple_cons_ne {c : Char} (hc : c ≠ ':') (l : List Char) :
    hasTripleColon (c :: l) = hasTripleColon l := by
  simp [hasTripleColon, beq_iff_eq, hc]

theorem hasTriple_split {c : Char} (hc : c ≠ ':') (xs ys : List Char) :
    hasTripleColon (xs ++ c :: ys) =
      (hasTripleColon xs || hasTripleColon ys) := by
  induction xs with
  | nil =>
    rw [List.nil_append, hasTriple_cons_ne hc]
    rfl
  | cons x xs ih =>
    rw [List.cons_append]
    show (x == ':' && startsTwoColons (xs ++ c :: ys) ||
      hasTripleColon (xs ++ c :: ys)) = _
    rw [startsTwoColons_append hc, ih]
    show _ = (x == ':' && startsTwoColons xs || hasTripleColon xs ||
      hasTripleColon ys)
    rw [Bool.or_assoc]

theorem hasTriple_replicate (n : Nat) :
    hasTripleColon (List.replicate n ':') = decide (3 ≤ n) := by
  match n with
  | 0 => rfl
  | 1 => rfl
  | 2 => rfl
  | n + 3 =>
    show hasTripleColon (':' :: ':' :: ':' :: List.replicate n ':') = _
    have h3 : decide (3 ≤ n + 3) = true := by simp
    rw [h3]
    rcases n with _ | n <;> simp [hasTripleColon, startsTwoColons]

theorem emitColons_of_not_triple {n : Nat}
    (h : hasTripleColon (List.replicate n ':') = false) :
    emitColons n = List.replicate n ':' := by
  rw [hasTriple_replicate] at h
  have : ¬ 3 ≤ n := by simpa using h
  simp [emitColons, this]

theorem hasTriple_emitColons (n : Nat) :
    hasTripleColon (emitColons n) = false := by
  by_cases h : 3 ≤ n
  · simp only [emitColons, if_pos h]
    decide
  · simp only [emitColons, if_neg h, hasTriple_replicate]
    exact decide_eq_false h

theorem collapse_all_pred (p : Char → Bool) (hp : p ':' = true) :
    ∀ (s : List Char) (n : Nat), s.all p = true →
      (collapseColonRuns n s).all p = true := by
  intro s
  induction s with
  | nil =>
    intro n _
    simp only [collapseColonRuns]
    by_cases h : 3 ≤ n <;> simp [emitColons, h, hp, List.all_eq_true]
  | cons c cs ih =>
    intro n hall
    simp only [List.all_cons, Bool.and_eq_true] at hall
    simp only [collapseColonRuns]
    by_cases hc : c = ':'
    · rw [if_pos hc]
      exact ih (n + 1) hall.2
    · rw [if_neg hc]
      have hemit : (emitColons n).all p = true := by
        by_cases h : 3 ≤ n <;> simp [emitColons, h, hp, List.all_eq_true]
      simp only [List.all_append, hemit, Bool.true_and, List.all_cons,
        hall.1, ih 0 hall.2]

theorem hasTriple_collapse :
    ∀ (s : List Char) (n : Nat),
      hasTripleColon (collapseColonRuns n s) = false := by
  intro s
  induction s with
  | nil => intro n; simpa [collapseColonRuns] using hasTriple_emitColons n
  | cons c cs ih =>
    intro n
    simp only [collapseColonRuns]
    by_cases hc : c = ':'
    · rw [if_pos hc]; exact ih (n + 1)
    · rw [if_neg hc, hasTriple_split hc, hasTriple_emitColons, ih 0]
      rfl

theorem collapse_eq_self :
    ∀ (s : List Char) (n : Nat),
      hasTripleColon (List.replicate n ':' ++ s) = false →
      collapseColonRuns n s = List.replicate n ':' ++ s := by
  intro s
  induction s with
  | nil =>
    intro n h
    rw [List.append_nil] at h
    simp only [collapseColonRuns, List.append_nil]
    exact emitColons_of_not_triple h
  | cons c cs ih =>
    intro n h
    simp only [collapseColonRuns]
    by_cases hc : c = ':'
    · rw [if_pos hc]
      subst hc
      have hrw : List.replicate n ':' ++ ':' :: cs =
          List.replicate (n + 1) ':' ++ cs := by
        rw [List.replicate_succ']
        simp
      rw [hrw] at h
      rw [ih (n + 1) h, hrw]
    · rw [if_neg hc]
      rw [hasTriple_split hc] at h
      simp only [Bool.or_eq_false_iff] at h
      rw [emitColons_of_not_triple h.1]
      have := ih 0 (by simpa using h.2)
      simp only [List.replicate, List.nil_append] at this
      rw [this]

/-- `ipv6Format` is idempotent. -/
theorem ipv6Format_idem (v : List Char) :
    ipv6Format (ipv6Format v) = ipv6Format v := by
  show ipv6Format (collapseColonRuns 0 _) = _
  unfold ipv6Format
  set p : Char → Bool := fun c => isHexChar c || c == ':' with hp
  have h1 : (collapseColonRuns 0 (v.filter p)).filter p =
      collapseColonRuns 0 (v.filter p) :=
    List.filter_eq_self.mpr fun a ha => by
      have hall := collapse_all_pred p (by rfl) (v.filter p) 0
        (List.all_eq_true.mpr fun c hc => List.of_mem_filter hc)
      exact List.all_eq_true.mp hall a ha
  rw [h1]
  exact collapse_eq_self _ 0 (by simpa using hasTriple_collapse (v.filter p) 0)

/-! ## IPv4 format lemmas -/

theorem takeWhile_all_eq {p : Char → Bool} {s : List Char}
    (h : s.all p = true) : s.takeWhile p = s := by
  induction s with
  | nil => rfl
  | cons c cs ih =>
    simp only [List.all_cons, Bool.and_eq_true] at h
    simp [List.takeWhile_cons, h.1, ih h.2]

theorem parseIntDec_all_digit {s : List Char} (h : s.all isDigit = true) :
    parseIntDec s = if s = [] then none else some (decValue s) := by
  simp [parseIntDec, takeWhile_all_eq h]

theorem isDigit_ne_dot {c : Char} (h : isDigit c = true) : c ≠ '.' := by
  rintro rfl
  simp [isDigit] at h

theorem ipv4Trunc_eq_take (s : List Char) : ipv4Trunc s = s.take 3 := by
  unfold ipv4Trunc
  by_cases hlen : 3 < s.length
  · rw [if_pos hlen]
  · rw [if_neg hlen, List.take_of_length_le (by omega)]

theorem ipv4ProcSeg_props {s : List Char} (h : s.all isDigit = true) :
    (ipv4ProcSeg s).all isDigit = true ∧ (ipv4ProcSeg s).length ≤ 3 ∧
      decValue (ipv4ProcSeg s) ≤ 255 := by
  have htake : (s.take 3).all isDigit = true :=
    List.all_eq_true.mpr fun c hc =>
      List.all_eq_true.mp h c (List.mem_of_mem_take hc)
  unfold ipv4ProcSeg
  rw [ipv4Trunc_eq_take, parseIntDec_all_digit htake]
  by_cases hne : s.take 3 = []
  · rw [if_pos hne, hne]
    refine ⟨by decide, by decide, by decide⟩
  · rw [if_neg hne]
    dsimp only
    by_cases hv : 255 < decValue (s.take 3)
    · rw [if_pos hv]
      refine ⟨by decide, by decide, by decide⟩
    · rw [if_neg hv]
      exact ⟨htake, by simp [List.length_take], by omega⟩

theorem ipv4ProcSeg_fix {s : List Char} (h : s.all isDigit = true)
    (hl : s.length ≤ 3) (hv : decValue s ≤ 255) : ipv4ProcSeg s = s := by
  have ht : ipv4Trunc s = s := by
    rw [ipv4Trunc_eq_take, List.take_of_length_le hl]
  unfold ipv4ProcSeg
  rw [ht, parseIntDec_all_digit h]
  by_cases hne : s = []
  · rw [if_pos hne]
  · rw [if_neg hne]
    dsimp only
    rw [if_neg (by omega)]

theorem ipv4ProcSeg_idem {s : List Char} (h : s.all isDigit = true) :
    ipv4ProcSeg (ipv4ProcSeg s) = ipv4ProcSeg s := by
  rcases ipv4ProcSeg_props h with ⟨h1, h2, h3⟩
  exact ipv4ProcSeg_fix h1 h2 h3

theorem ipv4ProcSeg_nil : ipv4ProcSeg [] = [] := by rfl

theorem ipv4Advance_nil : ipv4Advance [] = false := by rfl

theorem ipv4Loop_shape (segs : List (List Char)) :
    ipv4Loop segs.length 0 (segs.take 4) =
      (segs.take 4).map ipv4ProcSeg ++
        (if segs.length ≤ 3 ∧
            ipv4Advance (ipv4ProcSeg (segs.getLastD [])) = true
          then [[]] else []) := by
  rcases segs with _ | ⟨a, _ | ⟨b, _ | ⟨c, _ | ⟨d, _ | ⟨e, t⟩⟩⟩⟩⟩
  · simp [ipv4Loop, ipv4ProcSeg_nil, ipv4Advance_nil]
  · cases hadv : ipv4Advance (ipv4ProcSeg a) <;>
      simp [ipv4Loop, hadv, List.getLastD]
  · cases hadv : ipv4Advance (ipv4ProcSeg b) <;>
      simp [ipv4Loop, hadv, List.getLastD]
  · cases hadv : ipv4Advance (ipv4ProcSeg c) <;>
      simp [ipv4Loop, hadv, List.getLastD]
  · simp [ipv4Loop]
  · have h0 : ((0 : Nat) == t.length + 5 - 1) = false := by
      rw [beq_eq_false_iff_ne]; omega
    have h1 : ((1 : Nat) == t.length + 5 - 1) = false := by
      rw [beq_eq_false_iff_ne]; omega
    have h2 : ((2 : Nat) == t.length + 5 - 1) = false := by
      rw [beq_eq_false_iff_ne]; omega
    have h3 : ¬ (t.length + 5 ≤ 3) := by omega
    simp [ipv4Loop, h0, h1, h2, h3]

theorem ipv4_parts_digit (v : List Char) :
    ∀ p ∈ ((v.filter (fun c => isDigit c || c == '.')).splitOn '.'),
      p.all isDigit = true := by
  intro p hp
  refine List.all_eq_true.mpr fun c hc => ?_
  rcases mem_splitOn_char hp c hc with ⟨hmem, hne⟩
  have hpred := List.of_mem_filter hmem
  have hpred' : isDigit c = true ∨ c = '.' := by
    simpa [beq_iff_eq] using hpred
  rcases hpred' with h | h
  · exact h
  · exact absurd h hne

theorem ipv4Format_unfold (v : List Char) :
    ipv4Format v =
      List.intercalate ['.']
        ((((v.filter (fun c => isDigit c || c == '.')).splitOn '.').take
            4).map ipv4ProcSeg ++
          (if ((v.filter (fun c => isDigit c || c == '.')).splitOn
                '.').length ≤ 3 ∧
              ipv4Advance (ipv4ProcSeg
                (((v.filter (fun c => isDigit c || c == '.')).splitOn
                  '.').getLastD [])) = true
            then [[]] else [])) := by
  unfold ipv4Format
  show List.intercalate ['.']
      (ipv4Loop
        ((v.filter (fun c => isDigit c || c == '.')).splitOn '.').length 0
        (((v.filter (fun c => isDigit c || c == '.')).splitOn
          '.').take 4)) = _
  rw [ipv4Loop_shape]

/-- `ipv4Format` is idempotent. -/
theorem ipv4Format_idem (v : List Char) :
    ipv4Format (ipv4Format v) = ipv4Format v := by
  have hparts := ipv4_parts_digit v
  rw [ipv4Format_unfold v] at *
  set segs := ((v.filter (fun c => isDigit c || c == '.')).splitOn '.')
    with hsegs
  set base := (segs.take 4).map ipv4ProcSeg with hbase
  set cond := (segs.length ≤ 3 ∧
    ipv4Advance (ipv4ProcSeg (segs.getLastD [])) = true) with hcond
  set out := base ++ (if cond then [[]] else []) with hout
  have hsegs_ne : segs ≠ [] := splitOn_char_ne_nil '.' _
  have hbase_ne : base ≠ [] := by
    intro hnil
    rcases List.map_eq_nil_iff.mp hnil with htake
    rcases List.take_eq_nil_iff.mp htake with h4 | hs
    · exact absurd h4 (by norm_num)
    · exact hsegs_ne hs
  have hout_ne : out ≠ [] := by
    intro hnil
    rcases List.append_eq_nil.mp hnil with ⟨h1, -⟩
    exact hbase_ne h1
  have hbase_digit : ∀ p ∈ base, p.all isDigit = true := by
    intro p hp
    rcases List.mem_map.mp hp with ⟨q, hq, rfl⟩
    exact (ipv4ProcSeg_props (hparts q (List.mem_of_mem_take hq))).1
  have houtdigit : ∀ p ∈ out, p.all isDigit = true := by
    intro p hp
    rcases List.mem_append.mp hp with h | h
    · exact hbase_digit p h
    · by_cases hc : cond
      · rw [if_pos hc] at h
        rcases List.mem_singleton.mp h with rfl
        rfl
      · rw [if_neg hc] at h
        cases h
  have houtfix : ∀ p ∈ out, ipv4ProcSeg p = p := by
    intro p hp
    rcases List.mem_append.mp hp with h | h
    · rcases List.mem_map.mp h with ⟨q, hq, rfl⟩
      exact ipv4ProcSeg_idem (hparts q (List.mem_of_mem_take hq))
    · by_cases hc : cond
      · rw [if_pos hc] at h
        rcases List.mem_singleton.mp h with rfl
        rfl
      · rw [if_neg hc] at h
        cases h
  have houtlen : out.length ≤ 4 := by
    rw [hout]
    rw [List.length_append, hbase, List.length_map, List.length_take]
    by_cases hc : cond
    · rw [if_pos hc]
      have := hc.1
      simp only [List.length_singleton]
      omega
    · rw [if_neg hc]
      simp only [List.length_nil]
      omega
  have hnodot : ∀ p ∈ out, '.' ∉ p := by
    intro p hp hdot
    have := List.all_eq_true.mp (houtdigit p hp) '.' hdot
    simp [isDigit] at this
  have hchars : ∀ c ∈ List.intercalate ['.'] out,
      (isDigit c || c == '.') = true := by
    intro c hc
    rcases mem_intercalate_char hc with rfl | ⟨p, hp, hcp⟩
    · simp
    · simp [List.all_eq_true.mp (houtdigit p hp) c hcp]
  have hfilter : (List.intercalate ['.'] out).filter
      (fun c => isDigit c || c == '.') = List.intercalate ['.'] out :=
    List.filter_eq_self.mpr hchars
  have hsplit : (List.intercalate ['.'] out).splitOn '.' = out :=
    List.splitOn_intercalate out '.' (fun l hl => hnodot l hl) hout_ne
  rw [ipv4Format_unfold (List.intercalate ['.'] out)]
  rw [hfilter, hsplit]
  have htake4 : out.take 4 = out := List.take_of_length_le houtlen
  rw [htake4]
  have hmapfix : out.map ipv4ProcSeg = out := by
    have := List.map_congr_left (g := id) fun p hp => houtfix p hp
    rw [this, List.map_id]
  rw [hmapfix]
  have hcond2 : ¬ (out.length ≤ 3 ∧
      ipv4Advance (ipv4ProcSeg (out.getLastD [])) = true) := by
    by_cases hc : cond
    · rintro ⟨-, hadv⟩
      have hlast : out.getLastD [] = [] := by
        rw [hout, if_pos hc, List.getLastD_eq_getLast?,
          List.getLast?_concat]
        rfl
      rw [hlast] at hadv
      rw [ipv4ProcSeg_nil, ipv4Advance_nil] at hadv
      cases hadv
    · rintro ⟨hlen3, hadv⟩
      rw [hout, if_neg hc, List.append_nil] at hlen3 hadv
      by_cases hsl : segs.length ≤ 3
      · have htks : segs.take 4 = segs := List.take_of_length_le (by omega)
        have hlast? : ∃ x, segs.getLast? = some x := by
          rcases hx : segs.getLast? with _ | x
          · exact absurd (List.getLast?_isSome.mpr hsegs_ne)
              (by rw [hx]; simp)
          · exact ⟨x, rfl⟩
        rcases hlast? with ⟨x, hx⟩
        have hxmem : x ∈ segs := List.mem_of_mem_getLast? hx
        have hlastb : base.getLastD [] = ipv4ProcSeg x := by
          rw [hbase, htks, List.getLastD_eq_getLast?, List.getLast?_map, hx]
          rfl
        rw [hlastb, ipv4ProcSeg_idem (hparts x hxmem)] at hadv
        have : cond := by
          rw [hcond]
          refine ⟨hsl, ?_⟩
          rw [List.getLastD_eq_getLast?, hx]
          exact hadv
        exact hc this
      · have : base.length = 4 := by
          rw [hbase, List.length_map, List.length_take]
          omega
        omega
  rw [if_neg hcond2, List.append_nil]
/-! ## MAC format lemmas -/

theorem isHexChar_ne_colon {c : Char} (h : isHexChar c = true) : c ≠ ':' := by
  rintro rfl
  simp [isHexChar] at h

theorem contains_two_le_splitOn {l : List Char}
    (h : l.contains ':' = true) : 2 ≤ (l.splitOn ':').length := by
  have hmem : ':' ∈ l := List.elem_iff.mp h
  have hcnt : 1 ≤ countChar l ':' := by
    have : ':' ∈ l.filter (· = ':') := List.mem_filter.mpr ⟨hmem, by simp⟩
    have hne : l.filter (· = ':') ≠ [] := List.ne_nil_of_mem this
    have := List.length_pos.mpr hne
    simpa [countChar] using this
  rw [length_splitOn_char]
  omega

theorem macFormat_unfold (v : List Char) :
    macFormat v =
      if ((v.filter (fun c => isHexChar c || c == ':')).contains ':' &&
          ((((v.filter (fun c => isHexChar c || c == ':')).splitOn
              ':').take 6).map (fun seg => seg.filter isHexChar)).all
            (fun seg => decide (seg.length ≤ 2))) = true then
        List.intercalate [':']
          (((((v.filter (fun c => isHexChar c || c == ':')).splitOn
              ':').take 6).map (fun seg => seg.filter isHexChar)).map
            (fun seg => seg.take 2))
      else
        List.intercalate [':']
          (chunkPairs ((v.filter isHexChar).take 12)) := rfl

/-- A colon-joined list of at most 6 hex segments of length at most 2,
with at least 2 segments, is a fixed point of `macFormat`. -/
theorem macFormat_fixed (ps : List (List Char)) (h2 : 2 ≤ ps.length)
    (h6 : ps.length ≤ 6)
    (hhex : ∀ p ∈ ps, p.all isHexChar = true)
    (hlen : ∀ p ∈ ps, p.length ≤ 2) :
    macFormat (List.intercalate [':'] ps) = List.intercalate [':'] ps := by
  rcases ps with _ | ⟨p, _ | ⟨q, rest⟩⟩
  · simp at h2
  · simp at h2
  set ps := p :: q :: rest with hps
  set r := List.intercalate [':'] ps with hr
  have hnocolon : ∀ s ∈ ps, ':' ∉ s := by
    intro s hs hc
    exact absurd rfl
      (isHexChar_ne_colon (List.all_eq_true.mp (hhex s hs) ':' hc))
  have hchars : ∀ c ∈ r, (isHexChar c || c == ':') = true := by
    intro c hc
    rcases mem_intercalate_char hc with rfl | ⟨s, hs, hcs⟩
    · simp
    · simp [List.all_eq_true.mp (hhex s hs) c hcs]
  have hfilter : r.filter (fun c => isHexChar c || c == ':') = r :=
    List.filter_eq_self.mpr hchars
  have hcontains : r.contains ':' = true := by
    rw [hr, hps]
    exact List.elem_iff.mpr (mem_self_intercalate_char ':' p q rest)
  have hsplit : r.splitOn ':' = ps := by
    rw [hr]
    exact List.splitOn_intercalate ps ':' hnocolon (by simp [hps])
  have htake6 : ps.take 6 = ps := List.take_of_length_le h6
  have hmapfilter : ps.map (fun seg => seg.filter isHexChar) = ps := by
    have : ∀ s ∈ ps, s.filter isHexChar = s := fun s hs =>
      List.filter_eq_self.mpr fun c hc =>
        List.all_eq_true.mp (hhex s hs) c hc
    rw [List.map_congr_left (g := id) this, List.map_id]
  have hmaptake : ps.map (fun seg => seg.take 2) = ps := by
    have : ∀ s ∈ ps, s.take 2 = s := fun s hs =>
      List.take_of_length_le (hlen s hs)
    rw [List.map_congr_left (g := id) this, List.map_id]
  have hall : ps.all (fun seg => decide (seg.length ≤ 2)) = true :=
    List.all_eq_true.mpr fun s hs => decide_eq_true (hlen s hs)
  rw [macFormat_unfold, hfilter, hsplit, htake6, hmapfilter, hmaptake,
    hcontains, hall]
  rw [if_pos (by rfl)]

/-- `macFormat` is idempotent. -/
theorem macFormat_idem (v : List Char) :
    macFormat (macFormat v) = macFormat v := by
  rw [macFormat_unfold v]
  set cleanedAll := v.filter (fun c => isHexChar c || c == ':') with hcl
  set rawSegments := ((cleanedAll.splitOn ':').take 6).map
    (fun seg => seg.filter isHexChar) with hraw
  by_cases hcond : (cleanedAll.contains ':' &&
      rawSegments.all (fun seg => decide (seg.length ≤ 2))) = true
  · rw [if_pos hcond]
    rcases Bool.and_eq_true_iff.mp hcond with ⟨hcol, hall⟩
    set ns := rawSegments.map (fun seg => seg.take 2) with hns
    have h2raw : 2 ≤ rawSegments.length := by
      rw [hraw, List.length_map, List.length_take]
      have := contains_two_le_splitOn hcol
      omega
    have h6raw : rawSegments.length ≤ 6 := by
      rw [hraw, List.length_map, List.length_take]
      omega
    have h2 : 2 ≤ ns.length := by rw [hns, List.length_map]; exact h2raw
    have h6 : ns.length ≤ 6 := by rw [hns, List.length_map]; exact h6raw
    have hhex : ∀ p ∈ ns, p.all isHexChar = true := by
      intro p hp
      rcases List.mem_map.mp hp with ⟨s, hs, rfl⟩
      rcases List.mem_map.mp hs with ⟨t, ht, rfl⟩
      exact List.all_eq_true.mpr fun c hc =>
        List.of_mem_filter (List.mem_of_mem_take hc)
    have hlen : ∀ p ∈ ns, p.length ≤ 2 := by
      intro p hp
      rcases List.mem_map.mp hp with ⟨s, hs, rfl⟩
      simp [List.length_take]
    exact macFormat_fixed ns h2 h6 hhex hlen
  · rw [if_neg hcond]
    set h := (v.filter isHexChar).take 12 with hh
    have hhex : h.all isHexChar = true :=
      List.all_eq_true.mpr fun c hc =>
        List.of_mem_filter (List.mem_of_mem_take hc)
    have hlen12 : h.length ≤ 12 := by
      rw [hh]
      simp [List.length_take]
    by_cases hshort : h.length ≤ 2
    · have hid : List.intercalate [':'] (chunkPairs h) = h := by
        rcases hcase : h with _ | ⟨a, _ | ⟨b, _ | ⟨c, t⟩⟩⟩
        · simp [chunkPairs, intercalate_char_nil]
        · simp [chunkPairs, intercalate_char_single]
        · simp [chunkPairs, intercalate_char_single]
        · rw [hcase] at hshort; simp at hshort
      rw [hid]
      rw [macFormat_unfold h]
      have hfl : h.filter (fun c => isHexChar c || c == ':') = h :=
        List.filter_eq_self.mpr fun c hc => by
          simp [List.all_eq_true.mp hhex c hc]
      rw [hfl]
      have hnc : h.contains ':' = false := by
        rcases hb : h.contains ':' with _ | _
        · rfl
        · exact absurd rfl
            (isHexChar_ne_colon
              (List.all_eq_true.mp hhex ':' (List.elem_iff.mp hb)))
      rw [hnc]
      rw [if_neg (by simp)]
      have hfh : h.filter isHexChar = h :=
        List.filter_eq_self.mpr fun c hc => List.all_eq_true.mp hhex c hc
      rw [hfh, List.take_of_length_le (by omega)]
      exact hid
    · apply macFormat_fixed (chunkPairs h)
      · exact chunkPairs_two_le_length h (by omega)
      · have := chunkPairs_two_mul_length h
        omega
      · intro p hp
        exact List.all_eq_true.mpr fun c hc =>
          List.all_eq_true.mp hhex c (chunkPairs_mem_chars h p hp c hc)
      · intro p hp
        exact chunkPairs_length_le h p hp

/-! ## Claim theorems (first batch) -/

/-- C1: for each of the three family handlers (IPv4, IPv6, MAC) and for
every string x, `format (format x) = format x`: the output of format is
a fixed point of format. -/
theorem C1_format_idempotent :
    (∀ x : List Char, ipv4Format (ipv4Format x) = ipv4Format x) ∧
    (∀ x : List Char, ipv6Format (ipv6Format x) = ipv6Format x) ∧
    (∀ x : List Char, macFormat (macFormat x) = macFormat x) :=
  ⟨ipv4Format_idem, ipv6Format_idem, macFormat_idem⟩

/-- C6: starting from the empty string and folding the characters of
"001A2B3C4D5E" one at a time with `v := macFormat (v ++ [c])`, the
final value is "00:1A:2B:3C:4D:5E". -/
theorem C6_mac_incremental_typing :
    ("001A2B3C4D5E".toList).foldl
        (fun v c => macFormat (v ++ [c])) ([] : List Char) =
      "00:1A:2B:3C:4D:5E".toList := by decide

/-- C8: the cursor recalculator returns `min oldCursor (len newValue)`
when the new value is shorter, `oldCursor + (len newValue - len
oldValue)` when it is longer, and `oldCursor` when the lengths are
equal; in particular `newCursor "192.168.1" "192.168.1." 9 = 10`. -/
theorem C8_cursor_recompute :
    (∀ (oldValue newValue : List Char) (oldCursor : Nat),
      (newValue.length < oldValue.length →
        computeNewCursorPosition oldValue newValue oldCursor =
          min oldCursor newValue.length) ∧
      (oldValue.length < newValue.length →
        computeNewCursorPosition oldValue newValue oldCursor =
          oldCursor + (newValue.length - oldValue.length)) ∧
      (newValue.length = oldValue.length →
        computeNewCursorPosition oldValue newValue oldCursor =
          oldCursor)) ∧
    computeNewCursorPosition "192.168.1".toList "192.168.1.".toList 9 =
      10 := by
  constructor
  · intro oldValue newValue oldCursor
    refine ⟨fun h => ?_, fun h => ?_, fun h => ?_⟩
    · rw [computeNewCursorPosition, if_pos h]
    · rw [computeNewCursorPosition, if_neg (by omega), if_pos h]
    · rw [computeNewCursorPosition, if_neg (by omega), if_neg (by omega)]
  · decide

theorem C8_cursor_recompute_witness :
    computeNewCursorPosition "ab".toList "a".toList 5 = min 5 1 ∧
    computeNewCursorPosition "a".toList "ab".toList 0 = 0 + (2 - 1) ∧
    computeNewCursorPosition "a".toList "b".toList 7 = 7 :=
  ⟨(C8_cursor_recompute.1 _ _ _).1 (by decide),
    (C8_cursor_recompute.1 _ _ _).2.1 (by decide),
    (C8_cursor_recompute.1 _ _ _).2.2 (by decide)⟩

/-- C10: IPv6 format does not enforce the at-most-one compression-marker
rule: on "1::2::3" it returns the string unchanged, both `::`
occurrences intact (the greedy scan still finds 2 matches), and the
result is rejected by validate. -/
theorem C10_ipv6_double_compression :
    ipv6Format "1::2::3".toList = "1::2::3".toList ∧
    countDoubleColonMatches "1::2::3".toList = 2 ∧
    ipv6Validate (ipv6Format "1::2::3".toList) = false := by
  refine ⟨by decide, by decide, by decide⟩

/-! ## IPv4 validate characterisation (C2) and auto-advance (C4) -/

theorem ipv4SegOk_iff (s : List Char) :
    ipv4SegOk s = true ↔
      (s ≠ [] ∧ s.length ≤ 3 ∧ s.all isDigit = true ∧ decValue s ≤ 255) := by
  rcases s with _ | ⟨a, _ | ⟨b, _ | ⟨c, _ | ⟨d, t⟩⟩⟩⟩
  · simp [ipv4SegOk]
  · simp [ipv4SegOk, isDigit, decValue]
    omega
  · simp [ipv4SegOk, isDigit, decValue]
    omega
  · simp [ipv4SegOk, isDigit, decValue]
    omega
  · simp [ipv4SegOk]

/-- C2, counterexample: the code's IPv4 validate accepts the
leading-zero segment "01" (the regex `[01]?\d\d?` matches it), so
"1.1.1.01" is accepted while the claimed characterisation (no invalid
leading-zero forms) rejects it. -/
theorem C2_ipv4_validate_counterexample :
    ipv4Validate "1.1.1.01".toList = true ∧
    ipv4SpecValidate "1.1.1.01".toList = false := by
  refine ⟨by decide, by decide⟩

/-- IPv4 validate accepts exactly the strings whose dot-split has 4
parts, each a nonempty string of at most 3 decimal digits with value at
most 255 (leading zeros included). -/
theorem ipv4Validate_iff (v : List Char) :
    ipv4Validate v = true ↔
      ((v.splitOn '.').length = 4 ∧
        ∀ p ∈ v.splitOn '.',
          p ≠ [] ∧ p.length ≤ 3 ∧ p.all isDigit = true ∧
            decValue p ≤ 255) := by
  show ((v.splitOn '.').length == 4 &&
      (v.splitOn '.').all ipv4SegOk) = true ↔ _
  rw [Bool.and_eq_true_iff, beq_iff_eq, List.all_eq_true]
  constructor
  · rintro ⟨h4, hall⟩
    exact ⟨h4, fun p hp => (ipv4SegOk_iff p).mp (hall p hp)⟩
  · rintro ⟨h4, hall⟩
    exact ⟨h4, fun p hp => (ipv4SegOk_iff p).mpr (hall p hp)⟩

theorem decValue_append_zero (s : List Char) :
    decValue (s ++ ['0']) = 10 * decValue s := by
  unfold decValue
  rw [List.foldl_append]
  simp

theorem getLastD_mem {l : List (List Char)} (h : l ≠ []) :
    l.getLastD [] ∈ l := by
  rcases hx : l.getLast? with _ | x
  · exact absurd (List.getLast?_isSome.mpr h) (by rw [hx]; simp)
  · rw [List.getLastD_eq_getLast?, hx]
    exact List.mem_of_mem_getLast? hx

theorem ipv4Advance_eq_claim {s : List Char} (h : s.all isDigit = true) :
    ipv4Advance s = ipv4ClaimComplete s := by
  rcases s with _ | ⟨c, t⟩
  · rfl
  · have hall0 : ((c :: t) ++ ['0']).all isDigit = true := by
      rw [List.all_append, h]
      decide
    rw [ipv4Advance, ipv4ClaimComplete]
    rw [parseIntDec_all_digit hall0, if_neg (by simp)]
    dsimp only
    rw [decValue_append_zero]
    have h0 : decide (0 < (c :: t).length) = true := by simp
    rw [h0, Bool.true_and]

/-- C4: in IPv4 format, an empty segment is appended after the
per-segment cleanup exactly when the last segment present has index
less than 3 and the processed segment is complete (length 3, or length
2 with ten times its value above 255); in all other cases the loop
output is just the processed segments. -/
theorem C4_ipv4_auto_advance (v : List Char) :
    ipv4Loop
        ((v.filter (fun c => isDigit c || c == '.')).splitOn '.').length 0
        (((v.filter (fun c => isDigit c || c == '.')).splitOn
          '.').take 4) =
      (((v.filter (fun c => isDigit c || c == '.')).splitOn
          '.').take 4).map ipv4ProcSeg ++
        (if ((v.filter (fun c => isDigit c || c == '.')).splitOn
              '.').length - 1 < 3 ∧
            ipv4ClaimComplete (ipv4ProcSeg
              (((v.filter (fun c => isDigit c || c == '.')).splitOn
                '.').getLastD [])) = true
          then [[]] else []) := by
  rw [ipv4Loop_shape]
  set segs := ((v.filter (fun c => isDigit c || c == '.')).splitOn '.')
    with hsegs
  have hne : segs ≠ [] := splitOn_char_ne_nil '.' _
  have hpos : 1 ≤ segs.length := List.length_pos.mpr hne
  have hdig : (segs.getLastD []).all isDigit = true :=
    ipv4_parts_digit v _ (getLastD_mem hne)
  have hprocdig := (ipv4ProcSeg_props hdig).1
  rw [ipv4Advance_eq_claim hprocdig]
  have hiff : (segs.length ≤ 3) ↔ (segs.length - 1 < 3) := by omega
  simp only [hiff]

/-- C2, amended: IPv4 validate accepts exactly the strings whose
dot-split has 4 parts, each a nonempty string of at most 3 decimal
digits with value at most 255 — leading zeros (e.g. "01", "001")
included. -/
theorem C2_ipv4_validate_amended (v : List Char) :
    ipv4Validate v = true ↔
      ((v.splitOn '.').length = 4 ∧
        ∀ p ∈ v.splitOn '.',
          p ≠ [] ∧ p.length ≤ 3 ∧ p.all isDigit = true ∧
            decValue p ≤ 255) :=
  ipv4Validate_iff v

/-! ## Validate implies format identity (C9): IPv4 and MAC -/

theorem ipv4_validate_format_id {v : List Char}
    (h : ipv4Validate v = true) : ipv4Format v = v := by
  rcases (ipv4Validate_iff v).mp h with ⟨h4, hprops⟩
  have hv : List.intercalate ['.'] (v.splitOn '.') = v :=
    List.intercalate_splitOn v '.'
  have hchars : ∀ c ∈ v, (isDigit c || c == '.') = true := by
    intro c hc
    rw [← hv] at hc
    rcases mem_intercalate_char hc with rfl | ⟨p, hp, hcp⟩
    · simp
    · simp [List.all_eq_true.mp (hprops p hp).2.2.1 c hcp]
  have hfil : v.filter (fun c => isDigit c || c == '.') = v :=
    List.filter_eq_self.mpr hchars
  rw [ipv4Format_unfold, hfil]
  rw [if_neg (by rintro ⟨hl, -⟩; omega)]
  rw [List.append_nil]
  have htk : (v.splitOn '.').take 4 = v.splitOn '.' :=
    List.take_of_length_le (by omega)
  rw [htk]
  have hmap : (v.splitOn '.').map ipv4ProcSeg = v.splitOn '.' := by
    have hcg : (v.splitOn '.').map ipv4ProcSeg =
        (v.splitOn '.').map id :=
      List.map_congr_left fun p hp =>
        ipv4ProcSeg_fix (hprops p hp).2.2.1 (hprops p hp).2.1
          (hprops p hp).2.2.2
    rw [hcg, List.map_id]
  rw [hmap, hv]

theorem mac_validate_format_id {v : List Char}
    (h : macValidate v = true) : macFormat v = v := by
  have h' : ((v.splitOn ':').length == 6 &&
      (v.splitOn ':').all
        (fun p => p.length == 2 && p.all isHexChar)) = true := h
  rcases Bool.and_eq_true_iff.mp h' with ⟨h6, hall⟩
  have h6' : (v.splitOn ':').length = 6 := beq_iff_eq.mp h6
  have hv : List.intercalate [':'] (v.splitOn ':') = v :=
    List.intercalate_splitOn v ':'
  have hpart : ∀ p ∈ v.splitOn ':',
      p.length = 2 ∧ p.all isHexChar = true := by
    intro p hp
    rcases Bool.and_eq_true_iff.mp (List.all_eq_true.mp hall p hp) with
      ⟨ha, hb⟩
    exact ⟨beq_iff_eq.mp ha, hb⟩
  have := macFormat_fixed (v.splitOn ':') (by omega) (by omega)
    (fun p hp => (hpart p hp).2) (fun p hp => by
      have := (hpart p hp).1
      omega)
  rw [hv] at this
  exact this

/-! ## IPv6 validate structure lemmas -/

theorem noColon_noTriple {l : List Char} (h : ':' ∉ l) :
    hasTripleColon l = false := by
  induction l with
  | nil => rfl
  | cons c cs ih =>
    have hc : c ≠ ':' := fun hcc => h (hcc ▸ List.mem_cons_self c cs)
    rw [hasTriple_cons_ne hc]
    exact ih fun hm => h (List.mem_cons_of_mem _ hm)

theorem hasTriple_append_no_colon {p X : List Char} (hp : ':' ∉ p) :
    hasTripleColon (p ++ X) = hasTripleColon X := by
  induction p with
  | nil => rfl
  | cons c cs ih =>
    have hc : c ≠ ':' := fun hcc => hp (hcc ▸ List.mem_cons_self c cs)
    rw [List.cons_append, hasTriple_cons_ne hc]
    exact ih fun hm => hp (List.mem_cons_of_mem _ hm)

theorem startsTwoColons_of_head_ne {X : List Char}
    (h : X.head? ≠ some ':') : startsTwoColons X = false := by
  unfold startsTwoColons
  have hb : (X.head? == some ':') = false := by
    rw [beq_eq_false_iff_ne]
    exact h
  rw [hb, Bool.false_and]

theorem hasTriple_colon_cons_head_ne {X : List Char}
    (h : X.head? ≠ some ':') :
    hasTripleColon (':' :: X) = hasTripleColon X := by
  show ((':' == ':' && startsTwoColons X) || hasTripleColon X) = _
  rw [startsTwoColons_of_head_ne h]
  simp

theorem intercalate_char_cons_ne (d : Char) (p : List Char)
    (ps : List (List Char)) (h : ps ≠ []) :
    List.intercalate [d] (p :: ps) = p ++ d :: List.intercalate [d] ps := by
  rcases ps with _ | ⟨q, rest⟩
  · exact absurd rfl h
  · exact intercalate_char_cons d p q rest

theorem head?_intercalate_cons_cons (c1 : Char) (q' : List Char)
    (rest : List (List Char)) :
    (List.intercalate [':'] ((c1 :: q') :: rest)).head? = some c1 := by
  rcases rest with _ | ⟨r, rest'⟩
  · rw [intercalate_char_single]
    rfl
  · rw [intercalate_char_cons]
    rfl

theorem hasTriple_intercalate_step {p : List Char} (hp : ':' ∉ p)
    {c1 : Char} (hc1 : c1 ≠ ':') (q' : List Char)
    (rest : List (List Char)) :
    hasTripleColon (List.intercalate [':'] (p :: (c1 :: q') :: rest)) =
      hasTripleColon (List.intercalate [':'] ((c1 :: q') :: rest)) := by
  have hh : (List.intercalate [':'] ((c1 :: q') :: rest)).head? ≠
      some ':' := by
    rw [head?_intercalate_cons_cons]
    intro h
    exact hc1 (Option.some.inj h)
  rw [intercalate_char_cons, hasTriple_append_no_colon hp,
    hasTriple_colon_cons_head_ne hh]

theorem hasTriple_two_colons_head_ne {X : List Char}
    (h : X.head? ≠ some ':') :
    hasTripleColon (':' :: ':' :: X) = hasTripleColon X := by
  show ((':' == ':' && startsTwoColons (':' :: X)) ||
    hasTripleColon (':' :: X)) = _
  have h1 : startsTwoColons (':' :: X) = false := by
    unfold startsTwoColons
    have hb : (X.head? == some ':') = false := by
      rw [beq_eq_false_iff_ne]
      exact h
    simp [hb]
  rw [h1, Bool.and_false, Bool.false_or,
    hasTriple_colon_cons_head_ne h]

theorem noTriple_intercalate_hextets :
    ∀ (ps : List (List Char)), ps ≠ [] →
      (∀ p ∈ ps, p ≠ [] ∧ ':' ∉ p) →
      hasTripleColon (List.intercalate [':'] ps) = false := by
  intro ps
  induction ps with
  | nil => intro h; exact absurd rfl h
  | cons p ps ih =>
    intro _ hall
    rcases ps with _ | ⟨_ | ⟨c1, q'⟩, rest⟩
    · rw [intercalate_char_single]
      exact noColon_noTriple (hall p (List.mem_cons_self _ _)).2
    · exact absurd rfl ((hall [] (by simp)).1)
    · have hc1 : c1 ≠ ':' := fun h =>
        ((hall (c1 :: q') (by simp)).2) (h ▸ List.mem_cons_self _ _)
      rw [hasTriple_intercalate_step (hall p (List.mem_cons_self _ _)).2
        hc1 q' rest]
      exact ih (by simp) fun r hr => hall r (List.mem_cons_of_mem _ hr)

theorem noTriple_intercalate_trailing :
    ∀ (front : List (List Char)), front ≠ [] →
      (∀ p ∈ front, p ≠ [] ∧ ':' ∉ p) →
      hasTripleColon
        (List.intercalate [':'] (front ++ [[], []])) = false := by
  intro front
  induction front with
  | nil => intro h; exact absurd rfl h
  | cons p front ih =>
    intro _ hall
    rcases front with _ | ⟨_ | ⟨c1, q'⟩, rest⟩
    · show hasTripleColon (List.intercalate [':'] (p :: [[], []])) = false
      rw [intercalate_char_cons,
        hasTriple_append_no_colon (hall p (List.mem_cons_self _ _)).2]
      decide
    · exact absurd rfl ((hall [] (by simp)).1)
    · show hasTripleColon (List.intercalate [':']
        (p :: (c1 :: q') :: (rest ++ [[], []]))) = false
      have hc1 : c1 ≠ ':' := fun h =>
        ((hall (c1 :: q') (by simp)).2) (h ▸ List.mem_cons_self _ _)
      rw [hasTriple_intercalate_step (hall p (List.mem_cons_self _ _)).2
        hc1 q' (rest ++ [[], []])]
      have := ih (by simp) fun r hr => hall r (List.mem_cons_of_mem _ hr)
      simpa using this

theorem noTriple_intercalate_leading (back : List (List Char))
    (hb : back ≠ []) (hall : ∀ p ∈ back, p ≠ [] ∧ ':' ∉ p) :
    hasTripleColon (List.intercalate [':'] ([] :: [] :: back)) = false := by
  rcases back with _ | ⟨_ | ⟨c1, q'⟩, rest⟩
  · exact absurd rfl hb
  · exact absurd rfl ((hall [] (by simp)).1)
  · rw [intercalate_char_cons, List.nil_append,
      intercalate_char_cons, List.nil_append]
    have hh : (List.intercalate [':'] ((c1 :: q') :: rest)).head? ≠
        some ':' := by
      rw [head?_intercalate_cons_cons]
      intro h
      exact ((hall (c1 :: q') (by simp)).2)
        ((Option.some.inj h) ▸ List.mem_cons_self _ _)
    rw [hasTriple_two_colons_head_ne hh]
    exact noTriple_intercalate_hextets _ (by simp) fun r hr =>
      hall r hr

theorem noTriple_intercalate_mid :
    ∀ (front back : List (List Char)), front ≠ [] → back ≠ [] →
      (∀ p ∈ front, p ≠ [] ∧ ':' ∉ p) →
      (∀ p ∈ back, p ≠ [] ∧ ':' ∉ p) →
      hasTripleColon
        (List.intercalate [':'] (front ++ [] :: back)) = false := by
  intro front
  induction front with
  | nil => intro back h; exact absurd rfl h
  | cons p front ih =>
    intro back _ hbne hallf hallb
    rcases front with _ | ⟨_ | ⟨c1, q'⟩, rest⟩
    · show hasTripleColon
        (List.intercalate [':'] (p :: [] :: back)) = false
      rw [intercalate_char_cons_ne ':' p ([] :: back) (by simp),
        hasTriple_append_no_colon (hallf p (List.mem_cons_self _ _)).2,
        intercalate_char_cons_ne ':' [] back hbne, List.nil_append]
      rcases back with _ | ⟨_ | ⟨d1, r'⟩, rest'⟩
      · exact absurd rfl hbne
      · exact absurd rfl ((hallb [] (by simp)).1)
      · have hh : (List.intercalate [':'] ((d1 :: r') :: rest')).head? ≠
            some ':' := by
          rw [head?_intercalate_cons_cons]
          intro h
          exact ((hallb (d1 :: r') (by simp)).2)
            ((Option.some.inj h) ▸ List.mem_cons_self _ _)
        rw [hasTriple_two_colons_head_ne hh]
        exact noTriple_intercalate_hextets _ (by simp) fun r hr =>
          hallb r hr
    · exact absurd rfl ((hallf [] (by simp)).1)
    · show hasTripleColon (List.intercalate [':']
        (p :: (c1 :: q') :: (rest ++ [] :: back))) = false
      have hc1 : c1 ≠ ':' := fun h =>
        ((hallf (c1 :: q') (by simp)).2) (h ▸ List.mem_cons_self _ _)
      rw [hasTriple_intercalate_step
        (hallf p (List.mem_cons_self _ _)).2 hc1 q' (rest ++ [] :: back)]
      have := ih back (by simp) hbne
        (fun r hr => hallf r (List.mem_cons_of_mem _ hr)) hallb
      simpa using this

theorem isHextet_props {p : List Char} (h : isHextet p = true) :
    p ≠ [] ∧ ':' ∉ p ∧ p.all isHexChar = true := by
  have h' : 1 ≤ p.length ∧ p.length ≤ 4 ∧ p.all isHexChar = true := by
    simpa [isHextet, Bool.and_eq_true_iff, and_assoc] using h
  refine ⟨?_, ?_, h'.2.2⟩
  · intro hnil
    rw [hnil] at h'
    simp at h'
  · intro hmem
    exact absurd rfl
      (isHexChar_ne_colon (List.all_eq_true.mp h'.2.2 ':' hmem))

theorem ipv6_branches_props (ps : List (List Char))
    (h : (ipv6Branch1 ps || ipv6Branch2 ps || ipv6BranchMid 6 1 ps ||
      ipv6BranchMid 5 2 ps || ipv6BranchMid 4 3 ps ||
      ipv6BranchMid 3 4 ps || ipv6BranchMid 2 5 ps ||
      ipv6BranchMid 1 6 ps || ipv6Branch9 ps) = true) :
    hasTripleColon (List.intercalate [':'] ps) = false ∧
      ∀ p ∈ ps, p = [] ∨ p.all isHexChar = true := by
  have hmid : ∀ K J, ipv6BranchMid K J ps = true →
      hasTripleColon (List.intercalate [':'] ps) = false ∧
        ∀ p ∈ ps, p = [] ∨ p.all isHexChar = true := by
    intro K J hKJ
    rw [ipv6BranchMid] at hKJ
    rcases List.any_eq_true.mp hKJ with ⟨k0, hk0, hin⟩
    rcases List.any_eq_true.mp hin with ⟨j0, hj0, hbody⟩
    have hb : ps.length = k0 + 1 + 1 + (j0 + 1) ∧
        (ps.take (k0 + 1)).all isHextet = true ∧
        ps.getD (k0 + 1) [] = [] ∧
        (ps.drop (k0 + 1 + 1)).all isHextet = true := by
      simpa [Bool.and_eq_true_iff, and_assoc, beq_iff_eq] using hbody
    rcases hb with ⟨hlen, hfront, hmidE, hback⟩
    have hklt : k0 + 1 < ps.length := by omega
    have hdecomp : ps = ps.take (k0 + 1) ++
        [] :: ps.drop (k0 + 1 + 1) := by
      conv_lhs => rw [← List.take_append_drop (k0 + 1) ps]
      rw [List.drop_eq_getElem_cons hklt,
        ← List.getD_eq_getElem ps [] hklt, hmidE]
    have hfrontp : ∀ p ∈ ps.take (k0 + 1), p ≠ [] ∧ ':' ∉ p := by
      intro p hp
      rcases isHextet_props (List.all_eq_true.mp hfront p hp) with
        ⟨h1, h2, -⟩
      exact ⟨h1, h2⟩
    have hbackp : ∀ p ∈ ps.drop (k0 + 1 + 1), p ≠ [] ∧ ':' ∉ p := by
      intro p hp
      rcases isHextet_props (List.all_eq_true.mp hback p hp) with
        ⟨h1, h2, -⟩
      exact ⟨h1, h2⟩
    have hfne : ps.take (k0 + 1) ≠ [] := by
      intro hnil
      rw [List.take_eq_nil_iff] at hnil
      rcases hnil with h1 | h1
      · omega
      · rw [h1] at hlen; simp at hlen; omega
    have hbne : ps.drop (k0 + 1 + 1) ≠ [] := by
      intro hnil
      have := List.length_drop (k0 + 1 + 1) ps
      rw [hnil] at this
      simp at this
      omega
    constructor
    · rw [hdecomp]
      exact noTriple_intercalate_mid _ _ hfne hbne hfrontp hbackp
    · intro p hp
      rw [hdecomp] at hp
      rcases List.mem_append.mp hp with h1 | h1
      · exact Or.inr (isHextet_props
          (List.all_eq_true.mp hfront p h1)).2.2
      · rcases List.mem_cons.mp h1 with rfl | h2
        · exact Or.inl rfl
        · exact Or.inr (isHextet_props
            (List.all_eq_true.mp hback p h2)).2.2
  rcases Bool.or_eq_true_iff.mp h with h | hb9
  rotate_left
  · -- branch 9
    rw [ipv6Branch9] at hb9
    rcases Bool.or_eq_true_iff.mp hb9 with h9 | heq
    · rcases List.any_eq_true.mp h9 with ⟨j0, hj0, hbody⟩
      have hb : ps.length = j0 + 3 ∧ ps.getD 0 [] = [] ∧
          ps.getD 1 [] = [] ∧ (ps.drop 2).all isHextet = true := by
        simpa [Bool.and_eq_true_iff, and_assoc, beq_iff_eq] using hbody
      rcases hb with ⟨hlen, h0, h1, hback⟩
      rcases hps : ps with _ | ⟨x, _ | ⟨y, back⟩⟩
      · rw [hps] at hlen; simp at hlen
      · rw [hps] at hlen; simp at hlen
      · rw [hps] at h0 h1 hback hlen
        simp only [List.getD] at h0 h1
        have hx : x = [] := by simpa using h0
        have hy : y = [] := by simpa using h1
        subst hx hy
        have hbackp : ∀ p ∈ back, p ≠ [] ∧ ':' ∉ p := by
          intro p hp
          rcases isHextet_props (List.all_eq_true.mp (by simpa using hback)
            p hp) with ⟨ha, hb', -⟩
          exact ⟨ha, hb'⟩
        have hbne : back ≠ [] := by
          intro hnil
          rw [hnil] at hlen
          simp at hlen
        constructor
        · exact noTriple_intercalate_leading back hbne hbackp
        · intro p hp
          rcases List.mem_cons.mp hp with rfl | hp1
          · exact Or.inl rfl
          · rcases List.mem_cons.mp hp1 with rfl | hp2
            · exact Or.inl rfl
            · exact Or.inr (isHextet_props
                (List.all_eq_true.mp (by simpa using hback) p hp2)).2.2
    · have hps : ps = [[], [], []] := by simpa using heq
      subst hps
      exact ⟨by decide, by decide⟩
  rcases Bool.or_eq_true_iff.mp h with h | hm16
  rotate_left
  · exact hmid 1 6 hm16
  rcases Bool.or_eq_true_iff.mp h with h | hm25
  rotate_left
  · exact hmid 2 5 hm25
  rcases Bool.or_eq_true_iff.mp h with h | hm34
  rotate_left
  · exact hmid 3 4 hm34
  rcases Bool.or_eq_true_iff.mp h with h | hm43
  rotate_left
  · exact hmid 4 3 hm43
  rcases Bool.or_eq_true_iff.mp h with h | hm52
  rotate_left
  · exact hmid 5 2 hm52
  rcases Bool.or_eq_true_iff.mp h with h | hm61
  rotate_left
  · exact hmid 6 1 hm61
  rcases Bool.or_eq_true_iff.mp h with hb1 | hb2
  · -- branch 1
    rw [ipv6Branch1] at hb1
    rcases Bool.and_eq_true_iff.mp hb1 with ⟨hlen, hall⟩
    have hlen' : ps.length = 8 := beq_iff_eq.mp hlen
    have hps : ∀ p ∈ ps, p ≠ [] ∧ ':' ∉ p := by
      intro p hp
      rcases isHextet_props (List.all_eq_true.mp hall p hp) with
        ⟨h1, h2, -⟩
      exact ⟨h1, h2⟩
    constructor
    · refine noTriple_intercalate_hextets ps ?_ hps
      intro hnil
      rw [hnil] at hlen'
      simp at hlen'
    · intro p hp
      exact Or.inr (isHextet_props (List.all_eq_true.mp hall p hp)).2.2
  · -- branch 2
    rw [ipv6Branch2] at hb2
    have hb : 3 ≤ ps.length ∧ ps.length ≤ 9 ∧
        (ps.take (ps.length - 2)).all isHextet = true ∧
        ps.getD (ps.length - 2) [] = [] ∧
        ps.getD (ps.length - 1) [] = [] := by
      simpa [Bool.and_eq_true_iff, and_assoc, beq_iff_eq] using hb2
    rcases hb with ⟨h3, h9, hfront, hm2, hm1⟩
    have hklt2 : ps.length - 2 < ps.length := by omega
    have hklt1 : ps.length - 1 < ps.length := by omega
    have heq21 : ps.length - 2 + 1 = ps.length - 1 := by omega
    have heq10 : ps.length - 1 + 1 = ps.length := by omega
    have hdecomp : ps = ps.take (ps.length - 2) ++ [[], []] := by
      conv_lhs => rw [← List.take_append_drop (ps.length - 2) ps]
      rw [List.drop_eq_getElem_cons hklt2,
        ← List.getD_eq_getElem ps [] hklt2, hm2, heq21,
        List.drop_eq_getElem_cons hklt1,
        ← List.getD_eq_getElem ps [] hklt1, hm1, heq10,
        List.drop_length]
    have hfrontp : ∀ p ∈ ps.take (ps.length - 2), p ≠ [] ∧ ':' ∉ p := by
      intro p hp
      rcases isHextet_props (List.all_eq_true.mp hfront p hp) with
        ⟨h1, h2, -⟩
      exact ⟨h1, h2⟩
    have hfne : ps.take (ps.length - 2) ≠ [] := by
      intro hnil
      rw [List.take_eq_nil_iff] at hnil
      rcases hnil with h1 | h1
      · omega
      · rw [h1] at h3; simp at h3
    constructor
    · rw [hdecomp]
      exact noTriple_intercalate_trailing _ hfne hfrontp
    · intro p hp
      rw [hdecomp] at hp
      rcases List.mem_append.mp hp with h1 | h1
      · exact Or.inr (isHextet_props
          (List.all_eq_true.mp hfront p h1)).2.2
      · rcases List.mem_cons.mp h1 with rfl | h2
        · exact Or.inl rfl
        · rcases List.mem_cons.mp h2 with rfl | h3
          · exact Or.inl rfl
          · cases h3

theorem ipv6Validate_branches {v : List Char}
    (h : ipv6Validate v = true) :
    (ipv6Branch1 (v.splitOn ':') || ipv6Branch2 (v.splitOn ':') ||
      ipv6BranchMid 6 1 (v.splitOn ':') ||
      ipv6BranchMid 5 2 (v.splitOn ':') ||
      ipv6BranchMid 4 3 (v.splitOn ':') ||
      ipv6BranchMid 3 4 (v.splitOn ':') ||
      ipv6BranchMid 2 5 (v.splitOn ':') ||
      ipv6BranchMid 1 6 (v.splitOn ':') ||
      ipv6Branch9 (v.splitOn ':')) = true := h

theorem ipv6_validate_format_id {v : List Char}
    (h : ipv6Validate v = true) : ipv6Format v = v := by
  rcases ipv6_branches_props (v.splitOn ':') (ipv6Validate_branches h)
    with ⟨hnt, hparts⟩
  have hv : List.intercalate [':'] (v.splitOn ':') = v :=
    List.intercalate_splitOn v ':'
  rw [hv] at hnt
  have hchars : ∀ c ∈ v, (isHexChar c || c == ':') = true := by
    intro c hc
    rw [← hv] at hc
    rcases mem_intercalate_char hc with rfl | ⟨p, hp, hcp⟩
    · simp
    · rcases hparts p hp with rfl | hhex
      · cases hcp
      · simp [List.all_eq_true.mp hhex c hcp]
  show collapseColonRuns 0
    (v.filter (fun c => isHexChar c || c == ':')) = v
  rw [List.filter_eq_self.mpr hchars]
  have := collapse_eq_self v 0 (by simpa using hnt)
  simpa using this

/-- C9: for each family handler, format is the identity on every string
accepted by validate: reformatting a complete valid address never
changes it. -/
theorem C9_validate_format_identity :
    (∀ v : List Char, ipv4Validate v = true → ipv4Format v = v) ∧
    (∀ v : List Char, ipv6Validate v = true → ipv6Format v = v) ∧
    (∀ v : List Char, macValidate v = true → macFormat v = v) :=
  ⟨fun _ h => ipv4_validate_format_id h,
    fun _ h => ipv6_validate_format_id h,
    fun _ h => mac_validate_format_id h⟩

theorem C9_validate_format_identity_witness :
    ipv4Format "192.168.1.1".toList = "192.168.1.1".toList ∧
    ipv6Format "2001:db8::1".toList = "2001:db8::1".toList ∧
    macFormat "00:1A:2B:3C:4D:5E".toList = "00:1A:2B:3C:4D:5E".toList :=
  ⟨C9_validate_format_identity.1 _ (by decide),
    C9_validate_format_identity.2.1 _ (by decide),
    C9_validate_format_identity.2.2 _ (by decide)⟩

/-! ## IPv6 colon-acceptance support lemmas (C5) -/

theorem hasTriple_tail {c : Char} {l : List Char}
    (h : hasTripleColon (c :: l) = false) : hasTripleColon l = false := by
  have h' : ((c == ':' && startsTwoColons l) || hasTripleColon l) =
      false := h
  rcases Bool.or_eq_false_iff.mp h' with ⟨-, h2⟩
  exact h2

theorem containsDoubleColon_iff_pairs (l : List Char) :
    containsDoubleColon l = true ↔ 1 ≤ countColonPairs l := by
  induction l with
  | nil => simp [containsDoubleColon, countColonPairs]
  | cons c cs ih =>
    show ((c == ':' && cs.head? == some ':') || containsDoubleColon cs) =
      true ↔ 1 ≤ (if c = ':' ∧ cs.head? = some ':' then 1 else 0) +
        countColonPairs cs
    by_cases h : c = ':' ∧ cs.head? = some ':'
    · simp [h.1, h.2, if_pos h]
    · rw [if_neg h]
      have hb : (c == ':' && cs.head? == some ':') = false := by
        rcases hc : (c == ':') with _ | _
        · rfl
        · have hcc : c = ':' := beq_iff_eq.mp hc
          have : ¬ cs.head? = some ':' := fun hh => h ⟨hcc, hh⟩
          simp [this]
      rw [hb, Bool.false_or, Nat.zero_add]
      exact ih

theorem hasTriple_cons_cons_colon {cs : List Char}
    (h : hasTripleColon (':' :: ':' :: cs) = false) :
    cs.head? ≠ some ':' ∧ hasTripleColon cs = false := by
  have h' : ((':' == ':' && startsTwoColons (':' :: cs)) ||
      hasTripleColon (':' :: cs)) = false := h
  rcases Bool.or_eq_false_iff.mp h' with ⟨h1, h2⟩
  refine ⟨?_, hasTriple_tail h2⟩
  intro hh
  rw [show startsTwoColons (':' :: cs) = true by
    unfold startsTwoColons
    simp [hh]] at h1
  simp at h1

theorem matches_eq_pairs :
    ∀ {l : List Char}, hasTripleColon l = false →
      countDoubleColonMatches l = countColonPairs l := by
  intro l
  induction l using countDoubleColonMatches.induct with
  | case1 => intro _; rfl
  | case2 c => intro _; simp [countDoubleColonMatches, countColonPairs]
  | case3 a b cs hab ih =>
    intro h
    obtain ⟨rfl, rfl⟩ := hab
    rcases hasTriple_cons_cons_colon h with ⟨hhead, hcs⟩
    rw [countDoubleColonMatches, if_pos ⟨rfl, rfl⟩]
    show _ = (if ':' = ':' ∧ (':' :: cs).head? = some ':' then 1 else 0) +
      ((if ':' = ':' ∧ cs.head? = some ':' then 1 else 0) +
        countColonPairs cs)
    rw [if_pos ⟨rfl, rfl⟩, if_neg (by rintro ⟨-, hx⟩; exact hhead hx)]
    rw [ih hcs]
    omega
  | case4 a b cs hab ih =>
    intro h
    rw [countDoubleColonMatches, if_neg hab]
    show _ = (if a = ':' ∧ (b :: cs).head? = some ':' then 1 else 0) +
      countColonPairs (b :: cs)
    rw [if_neg (by
      rintro ⟨ha, hb⟩
      exact hab ⟨ha, by simpa using hb⟩)]
    rw [Nat.zero_add]
    exact ih (hasTriple_tail h)

theorem take_getLast?_colon_iff {v : List Char} {cp : Nat}
    (hcp : cp ≤ v.length) :
    (v.take cp).getLast? = some ':' ↔
      (cp ≠ 0 ∧ v.getD (cp - 1) ' ' = ':') := by
  rcases Nat.eq_zero_or_pos cp with rfl | hpos
  · simp
  · have hlt : cp - 1 < v.length := by omega
    rw [List.getLast?_eq_getElem?, List.length_take]
    have hmin : min cp v.length = cp := by omega
    rw [hmin, List.getElem?_take, if_pos (by omega),
      List.getElem?_eq_getElem hlt, List.getD_eq_getElem v ' ' hlt]
    constructor
    · intro h
      exact ⟨by omega, Option.some.inj h⟩
    · rintro ⟨-, h⟩
      rw [h]

theorem drop_head?_colon_iff (v : List Char) (n : Nat) :
    (v.drop n).head? = some ':' ↔ v.getD n ' ' = ':' := by
  rw [List.head?_drop]
  by_cases h : n < v.length
  · rw [List.getElem?_eq_getElem h, List.getD_eq_getElem v ' ' h]
    constructor
    · intro hh; exact Option.some.inj hh
    · intro hh; rw [hh]
  · rw [List.getElem?_eq_none (by omega)]
    have : v.getD n ' ' = ' ' := List.getD_eq_default _ _ (by omega)
    rw [this]
    simp

theorem ipv6IsValidChar_colon_unfold (v : List Char) (cp se : Nat) :
    ipv6IsValidChar ':' v cp se =
      (if hasTripleColon (simulateInsert v ':' cp se) then false
       else if 1 < countDoubleColonMatches (simulateInsert v ':' cp se)
         then false
       else if !containsDoubleColon (simulateInsert v ':' cp se) &&
           7 < countChar (simulateInsert v ':' cp se) ':' then false
       else if !((v.take cp).getLast? == some ':' ||
             (v.drop cp).head? == some ':') &&
           (getSegmentTextAt v cp ':').length == 0 then false
       else true) := rfl

/-- C5: the IPv6 colon acceptance test returns false exactly when the
simulated insertion creates a run of 3 or more consecutive colons, or
creates a second `::` occurrence (2 or more colon-pair positions), or —
when no `::` exists after insertion — brings the colon count above 7,
or — when neither the character left of the caret nor the one right of
it is a colon — the segment containing the caret is empty. -/
theorem C5_ipv6_colon_reject_iff (v : List Char) (cp se : Nat)
    (hcp : cp ≤ v.length) :
    ipv6IsValidChar ':' v cp se = false ↔
      (hasTripleColon (simulateInsert v ':' cp se) = true ∨
        2 ≤ countColonPairs (simulateInsert v ':' cp se) ∨
        (countColonPairs (simulateInsert v ':' cp se) = 0 ∧
          7 < countChar (simulateInsert v ':' cp se) ':') ∨
        (¬ (cp ≠ 0 ∧ v.getD (cp - 1) ' ' = ':') ∧
          v.getD cp ' ' ≠ ':' ∧
          getSegmentTextAt v cp ':' = [])) := by
  rw [ipv6IsValidChar_colon_unfold]
  set after := simulateInsert v ':' cp se with hafter
  by_cases hA : hasTripleColon after = true
  · rw [if_pos hA]
    simp [hA]
  · have hA' : hasTripleColon after = false :=
      Bool.eq_false_iff.mpr hA
    rw [if_neg hA]
    have hmp := matches_eq_pairs hA'
    by_cases hM : 1 < countDoubleColonMatches after
    · rw [if_pos hM]
      have h2 : 2 ≤ countColonPairs after := by omega
      simp [h2]
    · rw [if_neg hM]
      by_cases hC : (!containsDoubleColon after &&
          decide (7 < countChar after ':')) = true
      · rw [if_pos hC]
        rcases Bool.and_eq_true_iff.mp hC with ⟨hnc, hcount⟩
        have hcf : containsDoubleColon after = false := by
          rcases hb : containsDoubleColon after
          · rfl
          · rw [hb] at hnc; cases hnc
        have hp0 : countColonPairs after = 0 := by
          by_contra hne
          have h1 : 1 ≤ countColonPairs after := by omega
          rw [(containsDoubleColon_iff_pairs after).mpr h1] at hcf
          cases hcf
        have h7 : 7 < countChar after ':' := of_decide_eq_true hcount
        simp [hp0, h7]
      · rw [if_neg hC]
        by_cases hD : (!((v.take cp).getLast? == some ':' ||
              (v.drop cp).head? == some ':') &&
            ((getSegmentTextAt v cp ':').length == 0)) = true
        · rw [if_pos hD]
          rcases Bool.and_eq_true_iff.mp hD with ⟨hnf, hseg⟩
          have hor : ((v.take cp).getLast? == some ':' ||
              (v.drop cp).head? == some ':') = false := by
            rcases hb : ((v.take cp).getLast? == some ':' ||
                (v.drop cp).head? == some ':')
            · rfl
            · rw [hb] at hnf; cases hnf
          rcases Bool.or_eq_false_iff.mp hor with ⟨hleft, hright⟩
          have hL : ¬ (cp ≠ 0 ∧ v.getD (cp - 1) ' ' = ':') := by
            intro hcontra
            have := (take_getLast?_colon_iff hcp).mpr hcontra
            rw [beq_iff_eq.mpr this] at hleft
            cases hleft
          have hR : v.getD cp ' ' ≠ ':' := by
            intro hcontra
            have := (drop_head?_colon_iff v cp).mpr hcontra
            rw [beq_iff_eq.mpr this] at hright
            cases hright
          have hS : getSegmentTextAt v cp ':' = [] :=
            List.length_eq_zero.mp (beq_iff_eq.mp hseg)
          exact iff_of_true rfl
            (Or.inr (Or.inr (Or.inr ⟨hL, hR, hS⟩)))
        · rw [if_neg hD]
          constructor
          · intro hcontra; cases hcontra
          · intro hcontra
            exfalso
            rcases hcontra with h | h | h | h
            · exact hA h
            · exact hM (by omega)
            · rcases h with ⟨hp0, h7⟩
              apply hC
              have hcf : containsDoubleColon after = false := by
                rcases hb : containsDoubleColon after
                · rfl
                · have := (containsDoubleColon_iff_pairs after).mp hb
                  omega
              rw [hcf]
              simp [h7]
            · rcases h with ⟨hl, hr, hs⟩
              apply hD
              have hleft : ((v.take cp).getLast? == some ':') = false := by
                rw [beq_eq_false_iff_ne]
                intro hcontra
                exact hl ((take_getLast?_colon_iff hcp).mp hcontra)
              have hright : ((v.drop cp).head? == some ':') = false := by
                rw [beq_eq_false_iff_ne]
                intro hcontra
                exact hr ((drop_head?_colon_iff v cp).mp hcontra)
              rw [hleft, hright]
              have hseg : ((getSegmentTextAt v cp ':').length == 0) =
                  true := by
                rw [hs]
                rfl
              rw [hseg]
              rfl

theorem C5_ipv6_colon_reject_iff_witness :
    ipv6IsValidChar ':' [] 0 0 = false :=
  (C5_ipv6_colon_reject_iff [] 0 0 (by decide)).mpr
    (Or.inr (Or.inr (Or.inr ⟨by decide, by decide, by decide⟩)))

/-! ## MAC colon-acceptance characterisation (C7) -/

theorem macIsValidChar_colon_unfold (v : List Char) (cp se : Nat) :
    macIsValidChar ':' v cp se =
      (if !(((getSegmentTextAt v cp ':').filter isHexChar).length == 2)
        then false
       else if 5 ≤ countChar v ':' then false
       else if 12 ≤ (v.filter isHexChar).length then false
       else if (v.take cp).getLast? == some ':' ||
           (v.drop se).head? == some ':' then false
       else true) := rfl

/-- C7: the MAC colon acceptance test returns true exactly when the
hex-filtered segment containing the caret has exactly 2 characters,
fewer than 5 colons are present, the total hex-digit count is below 12,
and neither adjacent character is already a colon; in particular
`isValidChar ':' "00" 2 2 = true`. -/
theorem C7_mac_colon_accept_iff :
    (∀ (v : List Char) (cp se : Nat), cp ≤ v.length →
      (macIsValidChar ':' v cp se = true ↔
        (((getSegmentTextAt v cp ':').filter isHexChar).length = 2 ∧
          countChar v ':' < 5 ∧
          (v.filter isHexChar).length < 12 ∧
          ¬ (cp ≠ 0 ∧ v.getD (cp - 1) ' ' = ':') ∧
          v.getD se ' ' ≠ ':'))) ∧
    macIsValidChar ':' "00".toList 2 2 = true := by
  constructor
  · intro v cp se hcp
    rw [macIsValidChar_colon_unfold]
    by_cases h1 : (((getSegmentTextAt v cp ':').filter
        isHexChar).length == 2) = true
    · rw [if_neg (by simp [h1])]
      have h1' := beq_iff_eq.mp h1
      by_cases h2 : 5 ≤ countChar v ':'
      · rw [if_pos h2]
        exact iff_of_false (by simp) (by omega)
      · rw [if_neg h2]
        by_cases h3 : 12 ≤ (v.filter isHexChar).length
        · rw [if_pos h3]
          exact iff_of_false (by simp) (by omega)
        · rw [if_neg h3]
          by_cases h4 : ((v.take cp).getLast? == some ':' ||
              (v.drop se).head? == some ':') = true
          · rw [if_pos h4]
            refine iff_of_false (by simp) ?_
            rintro ⟨-, -, -, hL, hR⟩
            rcases Bool.or_eq_true_iff.mp h4 with hl | hr
            · exact hL ((take_getLast?_colon_iff hcp).mp
                (beq_iff_eq.mp hl))
            · exact hR ((drop_head?_colon_iff v se).mp
                (beq_iff_eq.mp hr))
          · rw [if_neg h4]
            refine iff_of_true rfl ?_
            have h4' : ((v.take cp).getLast? == some ':' ||
                (v.drop se).head? == some ':') = false :=
              Bool.eq_false_iff.mpr h4
            rcases Bool.or_eq_false_iff.mp h4' with ⟨hl, hr⟩
            refine ⟨h1', by omega, by omega, ?_, ?_⟩
            · intro hcontra
              have := (take_getLast?_colon_iff hcp).mpr hcontra
              rw [beq_iff_eq.mpr this] at hl
              cases hl
            · intro hcontra
              have := (drop_head?_colon_iff v se).mpr hcontra
              rw [beq_iff_eq.mpr this] at hr
              cases hr
    · rw [if_pos (by simp [Bool.eq_false_iff.mpr h1])]
      refine iff_of_false (by simp) ?_
      rintro ⟨hlen, -⟩
      exact h1 (beq_iff_eq.mpr hlen)
  · decide

theorem C7_mac_colon_accept_iff_witness :
    macIsValidChar ':' "0a".toList 2 2 = true :=
  (C7_mac_colon_accept_iff.1 "0a".toList 2 2 (by decide)).mpr
    ⟨by decide, by decide, by decide, by decide, by decide⟩

/-! ## Prefix stability (C3) -/

theorem collapse_filter_ne_colon :
    ∀ (s : List Char) (n : Nat),
      (collapseColonRuns n s).filter (fun c => c != ':') =
        s.filter (fun c => c != ':') := by
  intro s
  induction s with
  | nil =>
    intro n
    show (emitColons n).filter (fun c => c != ':') = []
    by_cases h : 3 ≤ n
    · simp [emitColons, h]
    · simp only [emitColons, if_neg h]
      rw [List.filter_eq_nil_iff.mpr]
      intro c hc
      rcases List.eq_of_mem_replicate hc with rfl
      simp
  | cons c cs ih =>
    intro n
    show (if c = ':' then collapseColonRuns (n + 1) cs
      else emitColons n ++ c :: collapseColonRuns 0 cs).filter
        (fun c => c != ':') = _
    by_cases hc : c = ':'
    · rw [if_pos hc, ih (n + 1), hc]
      simp [List.filter_cons]
    · rw [if_neg hc]
      rw [List.filter_append]
      have hemit : (emitColons n).filter (fun c => c != ':') = [] := by
        by_cases h : 3 ≤ n
        · simp [emitColons, h]
        · simp only [emitColons, if_neg h]
          rw [List.filter_eq_nil_iff.mpr]
          intro x hx
          rcases List.eq_of_mem_replicate hx with rfl
          simp
      rw [hemit, List.nil_append, List.filter_cons, List.filter_cons]
      have hb : (c != ':') = true := bne_iff_ne.mpr hc
      rw [hb]
      simp only [if_true]
      rw [ih 0]

theorem ipv6Format_filter_sublist (x : List Char) :
    List.Sublist ((ipv6Format x).filter (fun c => c != ':')) x := by
  show List.Sublist ((collapseColonRuns 0
    (x.filter (fun c => isHexChar c || c == ':'))).filter
      (fun c => c != ':')) x
  rw [collapse_filter_ne_colon]
  exact (List.filter_sublist _).trans (List.filter_sublist x)

theorem ipv4ProcSeg_no_clamp {s : List Char} (hd : s.all isDigit = true)
    (hv : decValue (s.take 3) ≤ 255) : ipv4ProcSeg s = s.take 3 := by
  have htake : (s.take 3).all isDigit = true :=
    List.all_eq_true.mpr fun c hc =>
      List.all_eq_true.mp hd c (List.mem_of_mem_take hc)
  unfold ipv4ProcSeg
  rw [ipv4Trunc_eq_take, parseIntDec_all_digit htake]
  by_cases hne : s.take 3 = []
  · rw [if_pos hne]
  · rw [if_neg hne]
    dsimp only
    rw [if_neg (by omega)]

theorem macFormat_filter_sublist (x : List Char) :
    List.Sublist ((macFormat x).filter (fun c => c != ':')) x := by
  rw [macFormat_unfold]
  set cleanedAll := x.filter (fun c => isHexChar c || c == ':') with hcl
  set base6 := (cleanedAll.splitOn ':').take 6 with hb6
  set rawSegments := base6.map (fun seg => seg.filter isHexChar) with hraw
  by_cases hcond : (cleanedAll.contains ':' &&
      rawSegments.all (fun seg => decide (seg.length ≤ 2))) = true
  · rw [if_pos hcond]
    have hnocolon : ∀ p ∈ rawSegments.map (fun seg => seg.take 2),
        ∀ c ∈ p, c ≠ ':' := by
      intro p hp c hc
      rcases List.mem_map.mp hp with ⟨s, hs, rfl⟩
      rcases List.mem_map.mp hs with ⟨t, ht, rfl⟩
      exact isHexChar_ne_colon
        (List.of_mem_filter (List.mem_of_mem_take hc))
    rw [filter_ne_intercalate hnocolon]
    have s1 : List.Sublist
        ((rawSegments.map (fun seg => seg.take 2)).flatten)
        rawSegments.flatten :=
      flatten_map_sublist _ _ fun p _ => List.take_sublist 2 p
    have s2 : List.Sublist rawSegments.flatten base6.flatten := by
      rw [hraw]
      exact flatten_map_sublist _ _ fun p _ => List.filter_sublist p
    have s3 : List.Sublist base6.flatten
        (cleanedAll.splitOn ':').flatten := by
      rw [hb6]
      exact flatten_sublist_of_sublist (List.take_sublist 6 _)
    have s4 : (cleanedAll.splitOn ':').flatten =
        cleanedAll.filter (fun c => c != ':') :=
      flatten_splitOn_char ':' cleanedAll
    have s5 : List.Sublist (cleanedAll.filter (fun c => c != ':'))
        cleanedAll := List.filter_sublist cleanedAll
    have s6 : List.Sublist cleanedAll x := List.filter_sublist x
    exact (((s1.trans s2).trans s3).trans (s4 ▸ s5)).trans s6
  · rw [if_neg hcond]
    set hx := (x.filter isHexChar).take 12 with hhx
    have hnocolon : ∀ p ∈ chunkPairs hx, ∀ c ∈ p, c ≠ ':' := by
      intro p hp c hc
      have hmem : c ∈ hx := chunkPairs_mem_chars hx p hp c hc
      exact isHexChar_ne_colon
        (List.of_mem_filter (List.mem_of_mem_take hmem))
    rw [filter_ne_intercalate hnocolon, chunkPairs_flatten]
    exact (List.take_sublist 12 _).trans (List.filter_sublist x)

theorem ipv4Format_filter_sublist (x : List Char)
    (h : ∀ s ∈ ((x.filter (fun c => isDigit c ||
        c == '.')).splitOn '.').take 4,
      decValue (s.take 3) ≤ 255) :
    List.Sublist ((ipv4Format x).filter (fun c => c != '.')) x := by
  rw [ipv4Format_unfold]
  set segs := ((x.filter (fun c => isDigit c || c == '.')).splitOn '.')
    with hsegs
  have hparts := ipv4_parts_digit x
  have hnodot : ∀ p ∈ (segs.take 4).map ipv4ProcSeg ++
      (if segs.length ≤ 3 ∧
          ipv4Advance (ipv4ProcSeg (segs.getLastD [])) = true
        then [[]] else []), ∀ c ∈ p, c ≠ '.' := by
    intro p hp c hc
    rcases List.mem_append.mp hp with h1 | h1
    · rcases List.mem_map.mp h1 with ⟨s, hs, rfl⟩
      have := (ipv4ProcSeg_props (hparts s (List.mem_of_mem_take hs))).1
      exact isDigit_ne_dot (List.all_eq_true.mp this c hc)
    · by_cases hcnd : (segs.length ≤ 3 ∧
          ipv4Advance (ipv4ProcSeg (segs.getLastD [])) = true)
      · rw [if_pos hcnd] at h1
        rcases List.mem_singleton.mp h1 with rfl
        cases hc
      · rw [if_neg hcnd] at h1
        cases h1
  rw [filter_ne_intercalate hnodot]
  rw [List.flatten_append]
  have hextra : (if segs.length ≤ 3 ∧
      ipv4Advance (ipv4ProcSeg (segs.getLastD [])) = true
    then [([] : List Char)] else []).flatten = [] := by
    by_cases hcnd : (segs.length ≤ 3 ∧
        ipv4Advance (ipv4ProcSeg (segs.getLastD [])) = true)
    · rw [if_pos hcnd]; rfl
    · rw [if_neg hcnd]; rfl
  rw [hextra, List.append_nil]
  have hmap : (segs.take 4).map ipv4ProcSeg =
      (segs.take 4).map (fun s => s.take 3) :=
    List.map_congr_left fun s hs =>
      ipv4ProcSeg_no_clamp (hparts s (List.mem_of_mem_take hs)) (h s hs)
  rw [hmap]
  have s1 : List.Sublist (((segs.take 4).map
      (fun s => s.take 3)).flatten) (segs.take 4).flatten :=
    flatten_map_sublist _ _ fun p _ => List.take_sublist 3 p
  have s2 : List.Sublist (segs.take 4).flatten segs.flatten :=
    flatten_sublist_of_sublist (List.take_sublist 4 _)
  have s3 : segs.flatten =
      (x.filter (fun c => isDigit c || c == '.')).filter
        (fun c => c != '.') := flatten_splitOn_char '.' _
  refine ((s1.trans s2).trans ?_)
  rw [s3]
  exact (List.filter_sublist _).trans (List.filter_sublist x)

/-- C3, counterexample: IPv4 format clamps "256" to "255" (and appends
a trailing dot), so the non-delimiter output characters "255" are not a
subsequence of the input "256": format is not merely
filter/truncate/insert-delimiters. -/
theorem C3_prefix_stable_counterexample :
    ¬ List.Sublist ((ipv4Format "256".toList).filter (fun c => c != '.'))
      "256".toList := by decide

/-- C3, amended: for IPv6 and MAC format the non-delimiter output
characters are always a subsequence of the input; for IPv4 format the
same holds provided no dot-segment of the cleaned input, truncated to 3
characters, has value above 255 (otherwise the 255-clamp rewrites
characters). -/
theorem C3_prefix_stable_amended :
    (∀ x : List Char,
      List.Sublist ((ipv6Format x).filter (fun c => c != ':')) x) ∧
    (∀ x : List Char,
      List.Sublist ((macFormat x).filter (fun c => c != ':')) x) ∧
    (∀ x : List Char,
      (∀ s ∈ ((x.filter (fun c => isDigit c ||
          c == '.')).splitOn '.').take 4,
        decValue (s.take 3) ≤ 255) →
      List.Sublist ((ipv4Format x).filter (fun c => c != '.')) x) :=
  ⟨ipv6Format_filter_sublist, macFormat_filter_sublist,
    ipv4Format_filter_sublist⟩

theorem C3_prefix_stable_amended_witness :
    List.Sublist ((ipv4Format "19.2".toList).filter (fun c => c != '.'))
      "19.2".toList :=
  C3_prefix_stable_amended.2.2 "19.2".toList (by decide)
